import Mathlib

/-!
# Verification of the Minesweeper knowledge-based agent

A shallow embedding of the agent implemented in `minesweeper.py`: the
`Sentence` constraint representation, the `MinesweeperAI` knowledge base with
its `update_knowledge` propagation / subset-elimination fixpoint routine, and
the public operations `add_knowledge`, `make_safe_move`, `make_random_move`.

Python sets of board cells become `Finset Cell` with `Cell := ℤ × ℤ` (Python
tuples of unbounded ints); the knowledge base, a Python list of mutable
`Sentence` objects that is only ever appended to, becomes a `List Sentence`
rewritten functionally at each mutation.  The recursion in
`update_knowledge` (its two inner loops and the recursive self-call during
elimination) is not structurally terminating — and indeed diverges on some
inputs, see the termination theorems below — so the whole routine is
interpreted with an explicit fuel parameter: `none` means the computation did
not finish within the given fuel, and a Python run that terminates is exactly
a run on which some fuel returns `some`.
-/

/-- A board cell, a (row, column) pair of integers. -/
abbrev Cell : Type := ℤ × ℤ

/-- The `Sentence` class: a set of undetermined cells, the cells this sentence
has resolved as mines or safes, and the count of mines remaining among
`cells`.  Python's `__eq__` compares only `cells` and `count`; see `sentEq`. -/
structure Sentence where
  cells : Finset Cell
  mines : Finset Cell
  safes : Finset Cell
  count : ℤ
deriving DecidableEq

/-- Python `Sentence.__eq__`: equality of the `cells` set and the `count`. -/
def sentEq (s t : Sentence) : Prop :=
  s.cells = t.cells ∧ s.count = t.count

instance (s t : Sentence) : Decidable (sentEq s t) :=
  inferInstanceAs (Decidable (s.cells = t.cells ∧ s.count = t.count))

/-- `Sentence.__init__(cells, count)`: normalization at construction.  If the
count equals the number of cells, all cells are classified as mines and the
count is reset to 0; if the count is zero, all cells are classified as safe;
otherwise the cells and count are stored as given. -/
def mkSentence (cells : Finset Cell) (count : ℤ) : Sentence :=
  if (cells.card : ℤ) = count then ⟨∅, cells, ∅, 0⟩
  else if count = 0 then ⟨∅, ∅, cells, count⟩
  else ⟨cells, ∅, ∅, count⟩

/-- `Sentence.mark_mine(cell)`: if the cell is an undetermined member, move it
to the resolved-mines set and decrement the count; otherwise do nothing. -/
def Sentence.markMine (s : Sentence) (cell : Cell) : Sentence :=
  if cell ∈ s.cells then
    ⟨s.cells.erase cell, insert cell s.mines, s.safes, s.count - 1⟩
  else s

/-- `Sentence.mark_safe(cell)`: if the cell is an undetermined member, move it
to the resolved-safes set; the count is unchanged. -/
def Sentence.markSafe (s : Sentence) (cell : Cell) : Sentence :=
  if cell ∈ s.cells then
    ⟨s.cells.erase cell, s.mines, insert cell s.safes, s.count⟩
  else s

/-- The mutable state of `MinesweeperAI`: board dimensions, the cells already
played, the global known-mines and known-safes sets, and the list of
sentences. -/
structure AI where
  height : ℕ
  width : ℕ
  moves_made : Finset Cell
  mines : Finset Cell
  safes : Finset Cell
  knowledge : List Sentence
deriving DecidableEq

/-- `MinesweeperAI.__init__(height, width)`. -/
def initAI (height width : ℕ) : AI :=
  ⟨height, width, ∅, ∅, ∅, []⟩

/-- `MinesweeperAI.mark_mine(cell)`: add the cell to the global mines set and
update every sentence. -/
def AI.markMine (ai : AI) (cell : Cell) : AI :=
  { ai with
    mines := insert cell ai.mines
    knowledge := ai.knowledge.map (fun st => st.markMine cell) }

/-- `MinesweeperAI.mark_safe(cell)`: add the cell to the global safes set and
update every sentence. -/
def AI.markSafe (ai : AI) (cell : Cell) : AI :=
  { ai with
    safes := insert cell ai.safes
    knowledge := ai.knowledge.map (fun st => st.markSafe cell) }

/-- Python membership test `sentence in self.knowledge` (by `__eq__`). -/
def containsSent (kn : List Sentence) (s : Sentence) : Prop :=
  ∃ t ∈ kn, sentEq s t

instance (kn : List Sentence) (s : Sentence) : Decidable (containsSent kn s) :=
  inferInstanceAs (Decidable (∃ t ∈ kn, sentEq s t))

/-- The scan over the knowledge base inside `update_knowledge`: for each
sentence with `count == 0` collect its remaining cells as safe, else for each
with `len(cells) == count` collect its remaining cells as mines, accumulating
into the given pair of sets. -/
def scanKnowledge : List Sentence → Finset Cell × Finset Cell →
    Finset Cell × Finset Cell
  | [], sm => sm
  | st :: kn, sm =>
      scanKnowledge kn
        (if st.count = 0 then (sm.1 ∪ st.cells, sm.2)
         else if (st.cells.card : ℤ) = st.count then (sm.1, sm.2 ∪ st.cells)
         else sm)

/-- A total order on cells (row-major), used only to iterate a `Finset` in a
definite sequence: Python iterates its sets in an unspecified order, and
every such iteration in the source (marking a batch, scanning neighbors) has
an order-independent result, so any fixed order is a faithful refinement. -/
def cellLe (a b : Cell) : Prop :=
  a.1 < b.1 ∨ (a.1 = b.1 ∧ a.2 ≤ b.2)

instance : DecidableRel cellLe := fun a b =>
  inferInstanceAs (Decidable (a.1 < b.1 ∨ (a.1 = b.1 ∧ a.2 ≤ b.2)))

instance : IsTrans Cell cellLe := by
  constructor
  intro a b c hab hbc
  unfold cellLe at *
  rcases hab with h1 | ⟨h1, h2⟩ <;> rcases hbc with h3 | ⟨h3, h4⟩ <;> omega

instance : IsAntisymm Cell cellLe := by
  constructor
  intro a b hab hba
  unfold cellLe at *
  have : a.1 = b.1 ∧ a.2 = b.2 := by omega
  exact Prod.ext this.1 this.2

instance : IsTotal Cell cellLe := by
  constructor
  intro a b
  unfold cellLe
  omega

/-- Iterate a finite set of cells as a list: the underlying multiset sorted
by insertion sort (chosen over `Finset.sort` so that concrete runs reduce
inside the kernel). -/
def cellList (s : Finset Cell) : List Cell :=
  Quot.liftOn s.val (List.insertionSort cellLe)
    (fun l1 l2 hp =>
      List.eq_of_perm_of_sorted
        ((List.perm_insertionSort cellLe l1).trans
          (hp.trans (List.perm_insertionSort cellLe l2).symm))
        (List.sorted_insertionSort cellLe l1)
        (List.sorted_insertionSort cellLe l2))

/-- The propagation loop of `update_knowledge`: while the collected safes or
mines are non-empty, mark them all (safes first, then mines), clear, and
re-scan the knowledge base.  Fuel bounds the number of iterations. -/
def propLoop : ℕ → AI → Finset Cell → Finset Cell → Option AI
  | 0, _, _, _ => none
  | f + 1, ai, safes, mines =>
      if safes = ∅ ∧ mines = ∅ then some ai
      else
        let ai1 := (cellList safes).foldl AI.markSafe ai
        let ai2 := (cellList mines).foldl AI.markMine ai1
        let sm := scanKnowledge ai2.knowledge (∅, ∅)
        propLoop f ai2 sm.1 sm.2

/-- One body step of the elimination double loop, at the ordered index pair
(i, j): read the current i-th and j-th sentences; skip when equal (by
`__eq__`) or either count is zero; when the first's cell set is a subset of
the second's (or a proper superset, symmetrically), recursively ingest the
difference sentence through the supplied `update_knowledge` continuation. -/
def elimInner (uk : AI → Finset Cell → ℤ → Option AI) :
    AI → ℕ → List ℕ → Option AI
  | ai, _, [] => some ai
  | ai, i, j :: js =>
      match ai.knowledge.get? i, ai.knowledge.get? j with
      | some s1, some s2 =>
          if sentEq s1 s2 ∨ s1.count = 0 ∨ s2.count = 0 then
            elimInner uk ai i js
          else if s1.cells ⊆ s2.cells then
            match uk ai (s2.cells \ s1.cells) (s2.count - s1.count) with
            | none => none
            | some ai1 => elimInner uk ai1 i js
          else if s2.cells ⊂ s1.cells then
            match uk ai (s1.cells \ s2.cells) (s1.count - s2.count) with
            | none => none
            | some ai1 => elimInner uk ai1 i js
          else elimInner uk ai i js
      | _, _ => elimInner uk ai i js

/-- The outer loop of one elimination pass: iterate the outer index over the
snapshot taken when the pass starts; the inner snapshot (`self.knowledge.copy()`
in the inner `for`) is re-taken for every outer index, so the inner index
ranges over the length of the knowledge base at that moment. -/
def elimOuter (uk : AI → Finset Cell → ℤ → Option AI) :
    AI → List ℕ → Option AI
  | ai, [] => some ai
  | ai, i :: is =>
      match elimInner uk ai i (List.range ai.knowledge.length) with
      | none => none
      | some ai1 => elimOuter uk ai1 is

/-- The elimination while-loop: repeat passes while the knowledge base grew
since the last measurement (`while l0 < len(self.knowledge)`). -/
def elimLoop (uk : AI → Finset Cell → ℤ → Option AI) :
    ℕ → AI → ℕ → Option AI
  | 0, _, _ => none
  | f + 1, ai, l0 =>
      if l0 < ai.knowledge.length then
        match elimOuter uk ai (List.range ai.knowledge.length) with
        | none => none
        | some ai1 => elimLoop uk f ai1 ai.knowledge.length
      else some ai

/-- Step 1 of `update_knowledge`: the new sentence is appended to the
knowledge base unless an equal one (by `__eq__`) is already present. -/
def ingestState (ai : AI) (cells : Finset Cell) (count : ℤ) : AI :=
  if containsSent ai.knowledge (mkSentence cells count) then ai
  else { ai with knowledge := ai.knowledge ++ [mkSentence cells count] }

/-- The safes and mines first collected by `update_knowledge`: those the new
sentence classified at construction, together with those of every currently
degenerate sentence. -/
def ingestScan (ai : AI) (cells : Finset Cell) (count : ℤ) : Finset Cell × Finset Cell :=
  scanKnowledge (ingestState ai cells count).knowledge
    ((mkSentence cells count).safes, (mkSentence cells count).mines)

/-- `MinesweeperAI.update_knowledge(cells, count)`: build the sentence, add it
to the knowledge base unless an equal one is present, collect the safes and
mines it classifies together with those of every degenerate sentence, run the
propagation loop, then run the elimination loop, whose recursive self-calls
receive one unit less fuel. -/
def updateKnowledge : ℕ → AI → Finset Cell → ℤ → Option AI
  | 0, _, _, _ => none
  | f + 1, ai, cells, count =>
      match propLoop f (ingestState ai cells count)
          (ingestScan ai cells count).1 (ingestScan ai cells count).2 with
      | none => none
      | some ai2 => elimLoop (updateKnowledge f) f ai2 0

/-- The `neighbor_vectors` tuple. -/
def neighborVectors : List (ℤ × ℤ) :=
  [(-1, -1), (-1, 0), (-1, 1), (0, -1), (0, 1), (1, -1), (1, 0), (1, 1)]

/-- A cell lies on the board: both coordinates in `range(0, dimension)`, as
the neighbor loop of `add_knowledge` tests and as `random.randint(0,
dimension - 1)` draws. -/
def onBoard (ai : AI) (c : Cell) : Prop :=
  (0 ≤ c.1 ∧ c.1 < (ai.height : ℤ)) ∧ (0 ≤ c.2 ∧ c.2 < (ai.width : ℤ))

instance (ai : AI) (c : Cell) : Decidable (onBoard ai c) :=
  inferInstanceAs
    (Decidable ((0 ≤ c.1 ∧ c.1 < (ai.height : ℤ)) ∧ (0 ≤ c.2 ∧ c.2 < (ai.width : ℤ))))

/-- One step of the neighbor loop of `add_knowledge`, for one neighbor
vector: keep the in-bounds neighbor if not already played; a known mine
decrements the working count and is excluded, a known safe is excluded,
anything else joins the new constraint's cell set. -/
def neighborStep (ai : AI) (cell : Cell) (acc : Finset Cell × ℤ) (vec : ℤ × ℤ) :
    Finset Cell × ℤ :=
  let neighbor : Cell := (cell.1 + vec.1, cell.2 + vec.2)
  if onBoard ai neighbor ∧ neighbor ∉ ai.moves_made then
    if neighbor ∈ ai.mines then (acc.1, acc.2 - 1)
    else if neighbor ∉ ai.safes then (insert neighbor acc.1, acc.2)
    else acc
  else acc

/-- The neighbor accumulation loop of `add_knowledge` over the eight
neighbor vectors. -/
def neighborAcc (ai : AI) (cell : Cell) (count : ℤ) : Finset Cell × ℤ :=
  neighborVectors.foldl (neighborStep ai cell) (∅, count)

/-- The first two steps of `add_knowledge`: record the move and mark the
played cell safe. -/
def playedState (ai : AI) (cell : Cell) : AI :=
  AI.markSafe { ai with moves_made := insert cell ai.moves_made } cell

/-- `MinesweeperAI.add_knowledge(cell, count)`. -/
def addKnowledge (f : ℕ) (ai : AI) (cell : Cell) (count : ℤ) : Option AI :=
  let ai1 := playedState ai cell
  let nc := neighborAcc ai1 cell count
  updateKnowledge f ai1 nc.1 nc.2

/-- `MinesweeperAI.make_safe_move()`: some known-safe cell not yet played, if
any (the Python set iteration order is unspecified; the model picks the first
in the `Finset`'s list). -/
def makeSafeMove (ai : AI) : Option Cell :=
  (cellList ai.safes).find? (fun safe => safe ∉ ai.moves_made)

/-- The retry loop of `make_random_move`, with the random source modelled as
a stream of draws indexed by how many draws happened so far: keep drawing
while the drawn cell was already played or is a known mine.  Fuel bounds the
number of draws; the Python loop has no such bound and simply never returns
when no acceptable cell exists. -/
def randLoop (rnd : ℕ → Cell) (ai : AI) : ℕ → ℕ → Option Cell
  | 0, _ => none
  | f + 1, k =>
      if rnd k ∈ ai.moves_made ∨ rnd k ∈ ai.mines then randLoop rnd ai f (k + 1)
      else some (rnd k)

/-- `MinesweeperAI.make_random_move()`. -/
def makeRandomMove (rnd : ℕ → Cell) (f : ℕ) (ai : AI) : Option Cell :=
  randLoop rnd ai f 0

/-- States reachable from a fresh AI through terminating calls of the public
mutating operation `add_knowledge` (with arbitrary cell and count arguments;
`make_safe_move` and `make_random_move` do not mutate the state). -/
inductive Reachable : AI → Prop
  | init (height width : ℕ) : Reachable (initAI height width)
  | step {ai ai1 : AI} (f : ℕ) (cell : Cell) (count : ℤ) :
      Reachable ai → addKnowledge f ai cell count = some ai1 → Reachable ai1


/-!
## Basic lemmas: marking, scanning, iteration
-/

lemma markSafe_cells_subset (s : Sentence) (x : Cell) :
    (s.markSafe x).cells ⊆ s.cells := by
  unfold Sentence.markSafe
  split
  · exact Finset.erase_subset x s.cells
  · exact Finset.Subset.refl _

lemma markMine_cells_subset (s : Sentence) (x : Cell) :
    (s.markMine x).cells ⊆ s.cells := by
  unfold Sentence.markMine
  split
  · exact Finset.erase_subset x s.cells
  · exact Finset.Subset.refl _

@[simp] lemma AI.markSafe_height (ai : AI) (x : Cell) : (ai.markSafe x).height = ai.height := rfl
@[simp] lemma AI.markSafe_width (ai : AI) (x : Cell) : (ai.markSafe x).width = ai.width := rfl
@[simp] lemma AI.markSafe_moves (ai : AI) (x : Cell) :
    (ai.markSafe x).moves_made = ai.moves_made := rfl
@[simp] lemma AI.markSafe_mines (ai : AI) (x : Cell) : (ai.markSafe x).mines = ai.mines := rfl
@[simp] lemma AI.markSafe_safes (ai : AI) (x : Cell) :
    (ai.markSafe x).safes = insert x ai.safes := rfl
@[simp] lemma AI.markSafe_knowledge (ai : AI) (x : Cell) :
    (ai.markSafe x).knowledge = ai.knowledge.map (fun st => st.markSafe x) := rfl

@[simp] lemma AI.markMine_height (ai : AI) (x : Cell) : (ai.markMine x).height = ai.height := rfl
@[simp] lemma AI.markMine_width (ai : AI) (x : Cell) : (ai.markMine x).width = ai.width := rfl
@[simp] lemma AI.markMine_moves (ai : AI) (x : Cell) :
    (ai.markMine x).moves_made = ai.moves_made := rfl
@[simp] lemma AI.markMine_mines (ai : AI) (x : Cell) :
    (ai.markMine x).mines = insert x ai.mines := rfl
@[simp] lemma AI.markMine_safes (ai : AI) (x : Cell) : (ai.markMine x).safes = ai.safes := rfl
@[simp] lemma AI.markMine_knowledge (ai : AI) (x : Cell) :
    (ai.markMine x).knowledge = ai.knowledge.map (fun st => st.markMine x) := rfl

lemma mem_cellList (s : Finset Cell) (x : Cell) : x ∈ cellList s ↔ x ∈ s := by
  have main : ∀ m : Multiset Cell,
      x ∈ Quot.liftOn m (List.insertionSort cellLe)
        (fun l1 l2 hp =>
          List.eq_of_perm_of_sorted
            ((List.perm_insertionSort cellLe l1).trans
              (hp.trans (List.perm_insertionSort cellLe l2).symm))
            (List.sorted_insertionSort cellLe l1)
            (List.sorted_insertionSort cellLe l2)) ↔ x ∈ m := by
    intro m
    induction m using Quotient.inductionOn with
    | h l => simpa using (List.perm_insertionSort cellLe l).mem_iff
  exact main s.val

/-- Membership in the safe half of a knowledge-base scan. -/
lemma mem_scan_fst (kn : List Sentence) (sm : Finset Cell × Finset Cell) (x : Cell) :
    x ∈ (scanKnowledge kn sm).1 ↔
      x ∈ sm.1 ∨ ∃ st ∈ kn, st.count = 0 ∧ x ∈ st.cells := by
  induction kn generalizing sm with
  | nil => simp [scanKnowledge]
  | cons st kn ih =>
    rw [scanKnowledge, ih]
    by_cases h0 : st.count = 0 <;> by_cases h1 : (st.cells.card : ℤ) = st.count <;>
      simp [h0, h1] <;> tauto

/-- Membership in the mine half of a knowledge-base scan. -/
lemma mem_scan_snd (kn : List Sentence) (sm : Finset Cell × Finset Cell) (x : Cell) :
    x ∈ (scanKnowledge kn sm).2 ↔
      x ∈ sm.2 ∨ ∃ st ∈ kn, st.count ≠ 0 ∧ (st.cells.card : ℤ) = st.count ∧ x ∈ st.cells := by
  induction kn generalizing sm with
  | nil => simp [scanKnowledge]
  | cons st kn ih =>
    rw [scanKnowledge, ih]
    by_cases h0 : st.count = 0 <;> by_cases h1 : (st.cells.card : ℤ) = st.count <;>
      simp [h0, h1] <;> tauto

/-!
## State evolution: what a terminating run preserves and grows

`update_knowledge` and its loops never touch `moves_made` or the board
dimensions, and only ever add to the global `safes` and `mines` sets.
-/

/-- The evolution relation between an AI state and any later state of the
same `update_knowledge` run. -/
def StepOK (ai ai1 : AI) : Prop :=
  ai.height = ai1.height ∧ ai.width = ai1.width ∧ ai.moves_made = ai1.moves_made ∧
    ai.safes ⊆ ai1.safes ∧ ai.mines ⊆ ai1.mines

lemma StepOK.refl (ai : AI) : StepOK ai ai :=
  ⟨rfl, rfl, rfl, Finset.Subset.refl _, Finset.Subset.refl _⟩

lemma StepOK.trans {ai1 ai2 ai3 : AI} (h1 : StepOK ai1 ai2) (h2 : StepOK ai2 ai3) :
    StepOK ai1 ai3 := by
  obtain ⟨a1, b1, c1, d1, e1⟩ := h1
  obtain ⟨a2, b2, c2, d2, e2⟩ := h2
  exact ⟨a1.trans a2, b1.trans b2, c1.trans c2, Finset.Subset.trans d1 d2,
    Finset.Subset.trans e1 e2⟩

lemma markSafe_stepOK (ai : AI) (x : Cell) : StepOK ai (ai.markSafe x) :=
  ⟨rfl, rfl, rfl, Finset.subset_insert x ai.safes, Finset.Subset.refl _⟩

lemma markMine_stepOK (ai : AI) (x : Cell) : StepOK ai (ai.markMine x) :=
  ⟨rfl, rfl, rfl, Finset.Subset.refl _, Finset.subset_insert x ai.mines⟩

lemma foldl_markSafe_stepOK (ai : AI) (L : List Cell) :
    StepOK ai (L.foldl AI.markSafe ai) := by
  induction L generalizing ai with
  | nil => exact StepOK.refl ai
  | cons x L ih => exact (markSafe_stepOK ai x).trans (ih (ai.markSafe x))

lemma foldl_markMine_stepOK (ai : AI) (L : List Cell) :
    StepOK ai (L.foldl AI.markMine ai) := by
  induction L generalizing ai with
  | nil => exact StepOK.refl ai
  | cons x L ih => exact (markMine_stepOK ai x).trans (ih (ai.markMine x))

lemma foldl_markSafe_safes (ai : AI) (L : List Cell) :
    (L.foldl AI.markSafe ai).safes = ai.safes ∪ L.toFinset := by
  induction L generalizing ai with
  | nil => simp
  | cons x L ih =>
    rw [List.foldl_cons, ih]
    simp [Finset.union_insert, Finset.insert_union]

lemma foldl_markMine_mines (ai : AI) (L : List Cell) :
    (L.foldl AI.markMine ai).mines = ai.mines ∪ L.toFinset := by
  induction L generalizing ai with
  | nil => simp
  | cons x L ih =>
    rw [List.foldl_cons, ih]
    simp [Finset.union_insert, Finset.insert_union]

lemma propLoop_stepOK {f : ℕ} {ai ai1 : AI} {s m : Finset Cell}
    (h : propLoop f ai s m = some ai1) : StepOK ai ai1 := by
  induction f generalizing ai s m with
  | zero => simp [propLoop] at h
  | succ f ih =>
    rw [propLoop] at h
    split at h
    · cases Option.some_injective _ h
      exact StepOK.refl _
    · exact ((foldl_markSafe_stepOK ai _).trans (foldl_markMine_stepOK _ _)).trans (ih h)

/-- All cells handed to the propagation loop end up marked. -/
lemma propLoop_marks {f : ℕ} {ai ai1 : AI} {s m : Finset Cell}
    (h : propLoop f ai s m = some ai1) : s ⊆ ai1.safes ∧ m ⊆ ai1.mines := by
  induction f generalizing ai s m with
  | zero => simp [propLoop] at h
  | succ f ih =>
    rw [propLoop] at h
    split at h
    · next he =>
      cases Option.some_injective _ h
      simp [he.1, he.2]
    · have hstep := propLoop_stepOK h
      constructor
      · intro x hx
        have h1 : x ∈ ((cellList s).foldl AI.markSafe ai).safes := by
          rw [foldl_markSafe_safes]
          simp [List.mem_toFinset, mem_cellList, hx]
        exact hstep.2.2.2.1 ((foldl_markMine_stepOK _ (cellList m)).2.2.2.1 h1)
      · intro x hx
        have h1 : x ∈ ((cellList m).foldl AI.markMine
            ((cellList s).foldl AI.markSafe ai)).mines := by
          rw [foldl_markMine_mines]
          simp [List.mem_toFinset, mem_cellList, hx]
        exact hstep.2.2.2.2 h1

lemma elimInner_stepOK {uk : AI → Finset Cell → ℤ → Option AI}
    (huk : ∀ ai c k ai1, uk ai c k = some ai1 → StepOK ai ai1)
    {js : List ℕ} {ai ai1 : AI} {i : ℕ}
    (h : elimInner uk ai i js = some ai1) : StepOK ai ai1 := by
  induction js generalizing ai with
  | nil =>
    rw [elimInner] at h
    cases Option.some_injective _ h
    exact StepOK.refl _
  | cons j js ih =>
    rw [elimInner] at h
    rcases hi : ai.knowledge.get? i with _ | s1 <;> rw [hi] at h
    · exact ih h
    rcases hj : ai.knowledge.get? j with _ | s2 <;> rw [hj] at h
    · exact ih h
    simp only at h
    split at h
    · exact ih h
    split at h
    · rcases hc : uk ai (s2.cells \ s1.cells) (s2.count - s1.count) with _ | ai2 <;>
        rw [hc] at h
      · simp at h
      · exact (huk _ _ _ _ hc).trans (ih h)
    split at h
    · rcases hc : uk ai (s1.cells \ s2.cells) (s1.count - s2.count) with _ | ai2 <;>
        rw [hc] at h
      · simp at h
      · exact (huk _ _ _ _ hc).trans (ih h)
    · exact ih h

lemma elimOuter_stepOK {uk : AI → Finset Cell → ℤ → Option AI}
    (huk : ∀ ai c k ai1, uk ai c k = some ai1 → StepOK ai ai1)
    {is : List ℕ} {ai ai1 : AI}
    (h : elimOuter uk ai is = some ai1) : StepOK ai ai1 := by
  induction is generalizing ai with
  | nil =>
    rw [elimOuter] at h
    cases Option.some_injective _ h
    exact StepOK.refl _
  | cons i is ih =>
    rw [elimOuter] at h
    rcases hc : elimInner uk ai i (List.range ai.knowledge.length) with _ | ai2 <;>
      rw [hc] at h
    · simp at h
    · exact (elimInner_stepOK huk hc).trans (ih h)

lemma elimLoop_stepOK {uk : AI → Finset Cell → ℤ → Option AI}
    (huk : ∀ ai c k ai1, uk ai c k = some ai1 → StepOK ai ai1)
    {f : ℕ} {ai ai1 : AI} {l0 : ℕ}
    (h : elimLoop uk f ai l0 = some ai1) : StepOK ai ai1 := by
  induction f generalizing ai l0 with
  | zero => simp [elimLoop] at h
  | succ f ih =>
    rw [elimLoop] at h
    split at h
    · rcases hc : elimOuter uk ai (List.range ai.knowledge.length) with _ | ai2 <;>
        rw [hc] at h
      · simp at h
      · exact (elimOuter_stepOK huk hc).trans (ih h)
    · cases Option.some_injective _ h
      exact StepOK.refl _

lemma ingestState_stepOK (ai : AI) (c : Finset Cell) (k : ℤ) :
    StepOK ai (ingestState ai c k) := by
  unfold ingestState
  split
  · exact StepOK.refl _
  · exact ⟨rfl, rfl, rfl, Finset.Subset.refl _, Finset.Subset.refl _⟩

/-- A terminating `update_knowledge` run fixes the dimensions and
`moves_made` and only grows `safes` and `mines`. -/
lemma updateKnowledge_stepOK {f : ℕ} {ai ai1 : AI} {c : Finset Cell} {k : ℤ}
    (h : updateKnowledge f ai c k = some ai1) : StepOK ai ai1 := by
  induction f generalizing ai c k ai1 with
  | zero => simp [updateKnowledge] at h
  | succ f ih =>
    rw [updateKnowledge] at h
    rcases hp : propLoop f (ingestState ai c k)
        (ingestScan ai c k).1 (ingestScan ai c k).2 with _ | ai2 <;> rw [hp] at h
    · simp at h
    · exact ((ingestState_stepOK ai c k).trans (propLoop_stepOK hp)).trans
        (elimLoop_stepOK (fun a c1 k1 a1 hc => ih hc) h)

/-!
## Sentence construction in the degenerate cases
-/

lemma mkSentence_count_zero {c : Finset Cell} (hne : c.Nonempty) :
    mkSentence c 0 = ⟨∅, ∅, c, 0⟩ := by
  have h : ¬ ((c.card : ℤ) = 0) := by
    simp only [Int.natCast_eq_zero, Finset.card_eq_zero]
    exact Finset.nonempty_iff_ne_empty.mp hne
  unfold mkSentence
  rw [if_neg h, if_pos rfl]

lemma mkSentence_full {c : Finset Cell} {k : ℤ} (h : (c.card : ℤ) = k) :
    mkSentence c k = ⟨∅, c, ∅, 0⟩ := by
  unfold mkSentence
  rw [if_pos h]

lemma ingestScan_fst_sup (ai : AI) (c : Finset Cell) (k : ℤ) :
    (mkSentence c k).safes ⊆ (ingestScan ai c k).1 := by
  intro x hx
  unfold ingestScan
  rw [mem_scan_fst]
  exact Or.inl hx

lemma ingestScan_snd_sup (ai : AI) (c : Finset Cell) (k : ℤ) :
    (mkSentence c k).mines ⊆ (ingestScan ai c k).2 := by
  intro x hx
  unfold ingestScan
  rw [mem_scan_snd]
  exact Or.inl hx

/-- C4: ingesting the constraint ({A,B}, 0) puts both A and B into the known
safes by the time the call returns, and ingesting ({A,B}, 2) (A and B
distinct) puts both into the known mines. -/
theorem C4_degenerate_resolution :
    (∀ (f : ℕ) (ai : AI) (a b : Cell) (ai1 : AI),
        updateKnowledge f ai {a, b} 0 = some ai1 →
        a ∈ ai1.safes ∧ b ∈ ai1.safes) ∧
    (∀ (f : ℕ) (ai : AI) (a b : Cell) (ai1 : AI), a ≠ b →
        updateKnowledge f ai {a, b} 2 = some ai1 →
        a ∈ ai1.mines ∧ b ∈ ai1.mines) := by
  constructor
  · intro f ai a b ai1 h
    cases f with
    | zero => simp [updateKnowledge] at h
    | succ f =>
      rw [updateKnowledge] at h
      rcases hp : propLoop f (ingestState ai {a, b} 0)
          (ingestScan ai {a, b} 0).1 (ingestScan ai {a, b} 0).2 with _ | ai2 <;> rw [hp] at h
      · simp at h
      · have hm := mkSentence_count_zero (c := {a, b}) (Finset.insert_nonempty a {b})
        have hs : ({a, b} : Finset Cell) ⊆ (ingestScan ai {a, b} 0).1 := by
          intro x hx
          apply ingestScan_fst_sup ai {a, b} 0
          rw [hm]
          exact hx
        have hmk := propLoop_marks hp
        have hfin := elimLoop_stepOK (fun a1 c1 k1 a2 hc => updateKnowledge_stepOK hc) h
        exact ⟨hfin.2.2.2.1 (hmk.1 (hs (Finset.mem_insert_self a {b}))),
          hfin.2.2.2.1 (hmk.1 (hs (by simp)))⟩
  · intro f ai a b ai1 hab h
    cases f with
    | zero => simp [updateKnowledge] at h
    | succ f =>
      rw [updateKnowledge] at h
      rcases hp : propLoop f (ingestState ai {a, b} 2)
          (ingestScan ai {a, b} 2).1 (ingestScan ai {a, b} 2).2 with _ | ai2 <;> rw [hp] at h
      · simp at h
      · have hcard : ((({a, b} : Finset Cell).card : ℤ)) = 2 := by
          rw [Finset.card_insert_of_not_mem (by simpa using hab)]
          simp
        have hm := mkSentence_full hcard
        have hs : ({a, b} : Finset Cell) ⊆ (ingestScan ai {a, b} 2).2 := by
          intro x hx
          apply ingestScan_snd_sup ai {a, b} 2
          rw [hm]
          exact hx
        have hmk := propLoop_marks hp
        have hfin := elimLoop_stepOK (fun a1 c1 k1 a2 hc => updateKnowledge_stepOK hc) h
        exact ⟨hfin.2.2.2.2 (hmk.2 (hs (Finset.mem_insert_self a {b}))),
          hfin.2.2.2.2 (hmk.2 (hs (by simp)))⟩

def C4safeState : AI :=
  (updateKnowledge 4 (initAI 2 2) {(0, 0), (0, 1)} 0).getD (initAI 0 0)

def C4mineState : AI :=
  (updateKnowledge 4 (initAI 2 2) {(0, 0), (0, 1)} 2).getD (initAI 0 0)

/-- Witness for C4 at the concrete cells (0,0), (0,1) on a 2-by-2 board. -/
theorem C4_degenerate_resolution_witness :
    (((0, 0) : Cell) ∈ C4safeState.safes ∧ ((0, 1) : Cell) ∈ C4safeState.safes) ∧
    (((0, 0) : Cell) ∈ C4mineState.mines ∧ ((0, 1) : Cell) ∈ C4mineState.mines) :=
  ⟨C4_degenerate_resolution.1 4 (initAI 2 2) (0, 0) (0, 1) C4safeState rfl,
   C4_degenerate_resolution.2 4 (initAI 2 2) (0, 0) (0, 1) C4mineState (by decide) rfl⟩

/-- C9: when every board cell is already played or a known mine,
`make_random_move` returns nothing at any draw budget, for every in-range
random stream; and whenever it returns a cell, that cell is on the board,
unplayed, and not a known mine. -/
theorem C9_random_move (ai : AI) (rnd : ℕ → Cell)
    (hr : ∀ k, onBoard ai (rnd k)) :
    ((∀ x, onBoard ai x → x ∈ ai.moves_made ∨ x ∈ ai.mines) →
        ∀ f, makeRandomMove rnd f ai = none) ∧
    (∀ f m, makeRandomMove rnd f ai = some m →
        onBoard ai m ∧ m ∉ ai.moves_made ∧ m ∉ ai.mines) := by
  have main1 : (∀ x, onBoard ai x → x ∈ ai.moves_made ∨ x ∈ ai.mines) →
      ∀ f k, randLoop rnd ai f k = none := by
    intro hall f
    induction f with
    | zero => intro k; rfl
    | succ f ih =>
      intro k
      rw [randLoop, if_pos (hall _ (hr k))]
      exact ih (k + 1)
  have main2 : ∀ f k m, randLoop rnd ai f k = some m →
      onBoard ai m ∧ m ∉ ai.moves_made ∧ m ∉ ai.mines := by
    intro f
    induction f with
    | zero => intro k m h; simp [randLoop] at h
    | succ f ih =>
      intro k m h
      rw [randLoop] at h
      split at h
      · exact ih _ _ h
      · next hcond =>
        cases Option.some_injective _ h
        push_neg at hcond
        exact ⟨hr k, hcond⟩
  exact ⟨fun hall f => main1 hall f 0, fun f m h => main2 f 0 m h⟩

def C9fullBoard : AI := ⟨1, 1, {(0, 0)}, ∅, ∅, []⟩

def C9emptyBoard : AI := ⟨1, 1, ∅, ∅, ∅, []⟩

/-- Witness for C9 on a 1-by-1 board with a constant random stream. -/
theorem C9_random_move_witness :
    makeRandomMove (fun _ => ((0, 0) : Cell)) 3 C9fullBoard = none ∧
    (onBoard C9emptyBoard ((0, 0) : Cell) ∧ ((0, 0) : Cell) ∉ C9emptyBoard.moves_made ∧
      ((0, 0) : Cell) ∉ C9emptyBoard.mines) := by
  constructor
  · apply (C9_random_move C9fullBoard (fun _ => ((0, 0) : Cell))
      (fun _ => (by decide : onBoard C9fullBoard ((0, 0) : Cell)))).1
    intro x hx
    obtain ⟨⟨h1, h2⟩, h3, h4⟩ := hx
    norm_num [C9fullBoard] at h2 h4
    have hx0 : x = ((0, 0) : Cell) := by
      have hh : x.1 = 0 ∧ x.2 = 0 := by omega
      exact Prod.ext hh.1 hh.2
    subst hx0
    left
    decide
  · exact (C9_random_move C9emptyBoard (fun _ => ((0, 0) : Cell))
      (fun _ => (by decide : onBoard C9emptyBoard ((0, 0) : Cell)))).2 3 (0, 0) (by decide)

/-- C10: `add_knowledge` records the played cell and marks it safe without
checking existing knowledge, so playing a cell already known to be a mine
leaves it in both certainty sets when the call returns. -/
theorem C10_play_known_mine (f : ℕ) (ai : AI) (cell : Cell) (k : ℤ) (ai1 : AI)
    (hmine : cell ∈ ai.mines) (h : addKnowledge f ai cell k = some ai1) :
    cell ∈ ai1.moves_made ∧ cell ∈ ai1.safes ∧ cell ∈ ai1.mines := by
  unfold addKnowledge at h
  have hstep := updateKnowledge_stepOK h
  refine ⟨?_, ?_, ?_⟩
  · rw [← hstep.2.2.1]
    show cell ∈ (playedState ai cell).moves_made
    simp [playedState]
  · apply hstep.2.2.2.1
    simp [playedState]
  · apply hstep.2.2.2.2
    simp [playedState, hmine]

def C10state : AI :=
  (addKnowledge 6 ⟨2, 2, ∅, {(0, 1)}, ∅, []⟩ (0, 1) 0).getD (initAI 0 0)

/-- Witness for C10: a state knowing (0,1) is a mine, then playing (0,1). -/
theorem C10_play_known_mine_witness :
    ((0, 1) : Cell) ∈ C10state.moves_made ∧ ((0, 1) : Cell) ∈ C10state.safes ∧
      ((0, 1) : Cell) ∈ C10state.mines :=
  C10_play_known_mine 6 ⟨2, 2, ∅, {(0, 1)}, ∅, []⟩ (0, 1) 0 C10state (by decide) (by rfl)

/-!
## C8: the constraint `add_knowledge` hands to `update_knowledge`
-/

/-- The eight grid-adjacent neighbors of a cell, one per neighbor vector. -/
def neighborsOf (cell : Cell) : List Cell :=
  neighborVectors.map (fun vec => (cell.1 + vec.1, cell.2 + vec.2))

/-- A neighbor the loop keeps in the new constraint's cell set. -/
def keepNeighbor (ai : AI) (n : Cell) : Prop :=
  onBoard ai n ∧ n ∉ ai.moves_made ∧ n ∉ ai.mines ∧ n ∉ ai.safes

instance (ai : AI) (n : Cell) : Decidable (keepNeighbor ai n) :=
  inferInstanceAs (Decidable (onBoard ai n ∧ n ∉ ai.moves_made ∧ n ∉ ai.mines ∧ n ∉ ai.safes))

/-- A neighbor the loop answers with a count decrement. -/
def decrNeighbor (ai : AI) (n : Cell) : Prop :=
  onBoard ai n ∧ n ∉ ai.moves_made ∧ n ∈ ai.mines

instance (ai : AI) (n : Cell) : Decidable (decrNeighbor ai n) :=
  inferInstanceAs (Decidable (onBoard ai n ∧ n ∉ ai.moves_made ∧ n ∈ ai.mines))

lemma neighborFold_spec (ai : AI) (cell : Cell) (L : List (ℤ × ℤ)) (S : Finset Cell) (c : ℤ) :
    L.foldl (neighborStep ai cell) (S, c) =
      (S ∪ ((L.map (fun vec => ((cell.1 + vec.1, cell.2 + vec.2) : Cell))).filter
          (fun n => decide (keepNeighbor ai n))).toFinset,
       c - ((L.map (fun vec => ((cell.1 + vec.1, cell.2 + vec.2) : Cell))).filter
          (fun n => decide (decrNeighbor ai n))).length) := by
  induction L generalizing S c with
  | nil => simp
  | cons v L ih =>
    rw [List.foldl_cons, List.map_cons]
    by_cases h1 : onBoard ai ((cell.1 + v.1, cell.2 + v.2) : Cell) ∧
        ((cell.1 + v.1, cell.2 + v.2) : Cell) ∉ ai.moves_made
    · by_cases h2 : ((cell.1 + v.1, cell.2 + v.2) : Cell) ∈ ai.mines
      · have hk : decide (keepNeighbor ai ((cell.1 + v.1, cell.2 + v.2) : Cell)) = false :=
          decide_eq_false (fun hkp => hkp.2.2.1 h2)
        have hq : decide (decrNeighbor ai ((cell.1 + v.1, cell.2 + v.2) : Cell)) = true :=
          decide_eq_true ⟨h1.1, h1.2, h2⟩
        rw [show neighborStep ai cell (S, c) v = (S, c - 1) by
          unfold neighborStep
          rw [if_pos h1, if_pos h2]]
        rw [ih, List.filter_cons_of_neg (by simp [hk]), List.filter_cons_of_pos (by simp [hq])]
        refine Prod.ext rfl ?_
        simp only [List.length_cons]
        push_cast
        ring
      · by_cases h3 : ((cell.1 + v.1, cell.2 + v.2) : Cell) ∈ ai.safes
        · have hk : decide (keepNeighbor ai ((cell.1 + v.1, cell.2 + v.2) : Cell)) = false :=
            decide_eq_false (fun hkp => hkp.2.2.2 h3)
          have hq : decide (decrNeighbor ai ((cell.1 + v.1, cell.2 + v.2) : Cell)) = false :=
            decide_eq_false (fun hqp => h2 hqp.2.2)
          rw [show neighborStep ai cell (S, c) v = (S, c) by
            unfold neighborStep
            rw [if_pos h1, if_neg h2, if_neg (by simpa using h3)]]
          rw [ih, List.filter_cons_of_neg (by simp [hk]), List.filter_cons_of_neg (by simp [hq])]
        · have hk : decide (keepNeighbor ai ((cell.1 + v.1, cell.2 + v.2) : Cell)) = true :=
            decide_eq_true ⟨h1.1, h1.2, h2, h3⟩
          have hq : decide (decrNeighbor ai ((cell.1 + v.1, cell.2 + v.2) : Cell)) = false :=
            decide_eq_false (fun hqp => h2 hqp.2.2)
          rw [show neighborStep ai cell (S, c) v =
              (insert ((cell.1 + v.1, cell.2 + v.2) : Cell) S, c) by
            unfold neighborStep
            rw [if_pos h1, if_neg h2, if_pos (by simpa using h3)]]
          rw [ih, List.filter_cons_of_pos (by simp [hk]), List.filter_cons_of_neg (by simp [hq])]
          refine Prod.ext ?_ rfl
          simp only [List.toFinset_cons]
          rw [Finset.union_insert, Finset.insert_union]
    · have hk : decide (keepNeighbor ai ((cell.1 + v.1, cell.2 + v.2) : Cell)) = false :=
        decide_eq_false (fun hkp => h1 ⟨hkp.1, hkp.2.1⟩)
      have hq : decide (decrNeighbor ai ((cell.1 + v.1, cell.2 + v.2) : Cell)) = false :=
        decide_eq_false (fun hqp => h1 ⟨hqp.1, hqp.2.1⟩)
      rw [show neighborStep ai cell (S, c) v = (S, c) by
        unfold neighborStep
        rw [if_neg h1]]
      rw [ih, List.filter_cons_of_neg (by simp [hk]), List.filter_cons_of_neg (by simp [hq])]

lemma neighborsOf_nodup (cell : Cell) : (neighborsOf cell).Nodup := by
  apply List.Nodup.map
  · intro v w hvw
    have h1 : cell.1 + v.1 = cell.1 + w.1 ∧ cell.2 + v.2 = cell.2 + w.2 := by
      constructor
      · exact congrArg Prod.fst hvw
      · exact congrArg Prod.snd hvw
    refine Prod.ext ?_ ?_ <;> omega
  · decide

lemma neighborsOf_ne_cell (cell : Cell) : ∀ n ∈ neighborsOf cell, n ≠ cell := by
  intro n hn
  simp only [neighborsOf, neighborVectors, List.map_cons, List.map_nil, List.mem_cons,
    List.not_mem_nil, or_false] at hn
  rcases hn with rfl | rfl | rfl | rfl | rfl | rfl | rfl | rfl <;>
    · intro hc
      have h1 := congrArg Prod.fst hc
      have h2 := congrArg Prod.snd hc
      simp only at h1 h2
      omega

/-- The cell set C8 says the ingested constraint has: the in-bounds
grid-adjacent neighbors of the played cell that are not in `moves_made`, not
known safe and not known mines. -/
def claimedConstraintCells (ai : AI) (cell : Cell) : Finset Cell :=
  (neighborsOf cell).toFinset.filter
    (fun n => onBoard ai n ∧ n ∉ ai.moves_made ∧ n ∉ ai.safes ∧ n ∉ ai.mines)

/-- The count C8 says the ingested constraint has: the hint minus one for
each in-bounds neighbor not in `moves_made` that is already a known mine. -/
def claimedConstraintCount (ai : AI) (cell : Cell) (count : ℤ) : ℤ :=
  count - (((neighborsOf cell).toFinset.filter
    (fun n => onBoard ai n ∧ n ∉ ai.moves_made ∧ n ∈ ai.mines)).card : ℤ)

/-- The constraint built by `add_knowledge` (evaluated on the state in which
the played cell has just been recorded and marked safe) is exactly the
claimed cell set and adjusted count, both relative to the state the call was
made in. -/
lemma neighborAcc_playedState (ai : AI) (cell : Cell) (count : ℤ) :
    neighborAcc (playedState ai cell) cell count =
      (claimedConstraintCells ai cell, claimedConstraintCount ai cell count) := by
  rw [neighborAcc, neighborFold_spec]
  have hps_board : ∀ n, onBoard (playedState ai cell) n ↔ onBoard ai n := by
    intro n
    unfold onBoard playedState
    simp
  have hps_moves : ∀ n, n ≠ cell →
      (n ∈ (playedState ai cell).moves_made ↔ n ∈ ai.moves_made) := by
    intro n hn
    unfold playedState
    simp [hn]
  have hps_safes : ∀ n, n ≠ cell →
      (n ∈ (playedState ai cell).safes ↔ n ∈ ai.safes) := by
    intro n hn
    unfold playedState
    simp [hn]
  have hps_mines : ∀ n, n ∈ (playedState ai cell).mines ↔ n ∈ ai.mines := by
    intro n
    unfold playedState
    simp
  refine Prod.ext ?_ ?_
  · show ∅ ∪ ((neighborsOf cell).filter
        (fun n => decide (keepNeighbor (playedState ai cell) n))).toFinset = _
    rw [Finset.empty_union, List.toFinset_filter, claimedConstraintCells]
    apply Finset.filter_congr
    intro n hn
    rw [List.mem_toFinset] at hn
    have hne := neighborsOf_ne_cell cell n hn
    simp only [decide_eq_true_eq, keepNeighbor]
    rw [hps_board, hps_moves n hne, hps_safes n hne, hps_mines]
    tauto
  · show count - (((neighborsOf cell).filter
        (fun n => decide (decrNeighbor (playedState ai cell) n))).length : ℤ) = _
    rw [claimedConstraintCount]
    have hnd : ((neighborsOf cell).filter
        (fun n => decide (decrNeighbor (playedState ai cell) n))).Nodup :=
      (neighborsOf_nodup cell).filter _
    rw [← List.toFinset_card_of_nodup hnd, List.toFinset_filter]
    have hc : ((neighborsOf cell).toFinset.filter
          (fun n => decide (decrNeighbor (playedState ai cell) n) = true)) =
        ((neighborsOf cell).toFinset.filter
          (fun n => onBoard ai n ∧ n ∉ ai.moves_made ∧ n ∈ ai.mines)) := by
      apply Finset.filter_congr
      intro n hn
      rw [List.mem_toFinset] at hn
      have hne := neighborsOf_ne_cell cell n hn
      simp only [decide_eq_true_eq, decrNeighbor]
      rw [hps_board, hps_moves n hne, hps_mines]
    rw [hc]

/-- C8: for every state, played cell and hint, the constraint `add_knowledge`
ingests has exactly the in-bounds grid-adjacent neighbors of the cell that
are not in `moves_made`, not known safe and not known mines as its cell set,
and the hint minus one per in-bounds unplayed neighbor already known to be a
mine as its count. -/
theorem C8_neighbor_constraint (ai : AI) (cell : Cell) (count : ℤ) :
    neighborAcc (playedState ai cell) cell count =
      (claimedConstraintCells ai cell, claimedConstraintCount ai cell count) :=
  neighborAcc_playedState ai cell count

/-!
## C7: resolved cells never linger inside sentence cell sets
-/

/-- The separation invariant: no known-safe or known-mine cell appears in any
sentence's undetermined cell set. -/
def SepInv (ai : AI) : Prop :=
  ∀ st ∈ ai.knowledge, (∀ x ∈ ai.safes, x ∉ st.cells) ∧ (∀ x ∈ ai.mines, x ∉ st.cells)

lemma markSafe_not_mem_cells (s : Sentence) (c : Cell) : c ∉ (s.markSafe c).cells := by
  unfold Sentence.markSafe
  split
  · exact Finset.not_mem_erase c s.cells
  · next h => exact h

lemma markMine_not_mem_cells (s : Sentence) (c : Cell) : c ∉ (s.markMine c).cells := by
  unfold Sentence.markMine
  split
  · exact Finset.not_mem_erase c s.cells
  · next h => exact h

lemma markSafe_sepInv {ai : AI} (h : SepInv ai) (c : Cell) : SepInv (ai.markSafe c) := by
  intro st1 hst1
  rw [AI.markSafe_knowledge, List.mem_map] at hst1
  obtain ⟨st, hst, rfl⟩ := hst1
  constructor
  · intro x hx
    rw [AI.markSafe_safes, Finset.mem_insert] at hx
    rcases hx with rfl | hx
    · exact markSafe_not_mem_cells st x
    · exact fun hc => (h st hst).1 x hx (markSafe_cells_subset st c hc)
  · intro x hx
    rw [AI.markSafe_mines] at hx
    exact fun hc => (h st hst).2 x hx (markSafe_cells_subset st c hc)

lemma markMine_sepInv {ai : AI} (h : SepInv ai) (c : Cell) : SepInv (ai.markMine c) := by
  intro st1 hst1
  rw [AI.markMine_knowledge, List.mem_map] at hst1
  obtain ⟨st, hst, rfl⟩ := hst1
  constructor
  · intro x hx
    rw [AI.markMine_safes] at hx
    exact fun hc => (h st hst).1 x hx (markMine_cells_subset st c hc)
  · intro x hx
    rw [AI.markMine_mines, Finset.mem_insert] at hx
    rcases hx with rfl | hx
    · exact markMine_not_mem_cells st x
    · exact fun hc => (h st hst).2 x hx (markMine_cells_subset st c hc)

lemma foldl_markSafe_sepInv {ai : AI} (h : SepInv ai) (L : List Cell) :
    SepInv (L.foldl AI.markSafe ai) := by
  induction L generalizing ai with
  | nil => exact h
  | cons x L ih => exact ih (markSafe_sepInv h x)

lemma foldl_markMine_sepInv {ai : AI} (h : SepInv ai) (L : List Cell) :
    SepInv (L.foldl AI.markMine ai) := by
  induction L generalizing ai with
  | nil => exact h
  | cons x L ih => exact ih (markMine_sepInv h x)

lemma propLoop_sepInv {f : ℕ} {ai ai1 : AI} {s m : Finset Cell}
    (hinv : SepInv ai) (h : propLoop f ai s m = some ai1) : SepInv ai1 := by
  induction f generalizing ai s m with
  | zero => simp [propLoop] at h
  | succ f ih =>
    rw [propLoop] at h
    split at h
    · cases Option.some_injective _ h
      exact hinv
    · exact ih (foldl_markMine_sepInv (foldl_markSafe_sepInv hinv _) _) h

lemma mkSentence_cells_subset (c : Finset Cell) (k : ℤ) : (mkSentence c k).cells ⊆ c := by
  unfold mkSentence
  split
  · exact Finset.empty_subset c
  split
  · exact Finset.empty_subset c
  · exact Finset.Subset.refl c

lemma ingestState_sepInv {ai : AI} {c : Finset Cell} {k : ℤ} (hinv : SepInv ai)
    (hs : ∀ x ∈ ai.safes, x ∉ c) (hm : ∀ x ∈ ai.mines, x ∉ c) :
    SepInv (ingestState ai c k) := by
  unfold ingestState
  split
  · exact hinv
  · intro st hst
    rw [List.mem_append] at hst
    rcases hst with hst | hst
    · exact hinv st hst
    · rw [List.mem_singleton] at hst
      subst hst
      constructor
      · exact fun x hx hc => hs x hx (mkSentence_cells_subset c k hc)
      · exact fun x hx hc => hm x hx (mkSentence_cells_subset c k hc)

lemma get_mem_knowledge {ai : AI} {i : ℕ} {s : Sentence}
    (h : ai.knowledge.get? i = some s) : s ∈ ai.knowledge :=
  List.get?_mem h

lemma elimInner_sepInv {uk : AI → Finset Cell → ℤ → Option AI}
    (huk : ∀ ai c k ai1, SepInv ai → (∀ x ∈ ai.safes, x ∉ c) → (∀ x ∈ ai.mines, x ∉ c) →
      uk ai c k = some ai1 → SepInv ai1)
    {js : List ℕ} {ai ai1 : AI} {i : ℕ} (hinv : SepInv ai)
    (h : elimInner uk ai i js = some ai1) : SepInv ai1 := by
  induction js generalizing ai with
  | nil =>
    rw [elimInner] at h
    cases Option.some_injective _ h
    exact hinv
  | cons j js ih =>
    rw [elimInner] at h
    rcases hi : ai.knowledge.get? i with _ | s1 <;> rw [hi] at h
    · exact ih hinv h
    rcases hj : ai.knowledge.get? j with _ | s2 <;> rw [hj] at h
    · exact ih hinv h
    simp only at h
    split at h
    · exact ih hinv h
    split at h
    · rcases hc : uk ai (s2.cells \ s1.cells) (s2.count - s1.count) with _ | ai2 <;>
        rw [hc] at h
      · simp at h
      · have hinv2 := huk ai _ _ ai2 hinv
          (fun x hx hd => (hinv s2 (get_mem_knowledge hj)).1 x hx (Finset.mem_sdiff.mp hd).1)
          (fun x hx hd => (hinv s2 (get_mem_knowledge hj)).2 x hx (Finset.mem_sdiff.mp hd).1)
          hc
        exact ih hinv2 h
    split at h
    · rcases hc : uk ai (s1.cells \ s2.cells) (s1.count - s2.count) with _ | ai2 <;>
        rw [hc] at h
      · simp at h
      · have hinv2 := huk ai _ _ ai2 hinv
          (fun x hx hd => (hinv s1 (get_mem_knowledge hi)).1 x hx (Finset.mem_sdiff.mp hd).1)
          (fun x hx hd => (hinv s1 (get_mem_knowledge hi)).2 x hx (Finset.mem_sdiff.mp hd).1)
          hc
        exact ih hinv2 h
    · exact ih hinv h

lemma elimOuter_sepInv {uk : AI → Finset Cell → ℤ → Option AI}
    (huk : ∀ ai c k ai1, SepInv ai → (∀ x ∈ ai.safes, x ∉ c) → (∀ x ∈ ai.mines, x ∉ c) →
      uk ai c k = some ai1 → SepInv ai1)
    {is : List ℕ} {ai ai1 : AI} (hinv : SepInv ai)
    (h : elimOuter uk ai is = some ai1) : SepInv ai1 := by
  induction is generalizing ai with
  | nil =>
    rw [elimOuter] at h
    cases Option.some_injective _ h
    exact hinv
  | cons i is ih =>
    rw [elimOuter] at h
    rcases hc : elimInner uk ai i (List.range ai.knowledge.length) with _ | ai2 <;>
      rw [hc] at h
    · simp at h
    · exact ih (elimInner_sepInv huk hinv hc) h

lemma elimLoop_sepInv {uk : AI → Finset Cell → ℤ → Option AI}
    (huk : ∀ ai c k ai1, SepInv ai → (∀ x ∈ ai.safes, x ∉ c) → (∀ x ∈ ai.mines, x ∉ c) →
      uk ai c k = some ai1 → SepInv ai1)
    {f : ℕ} {ai ai1 : AI} {l0 : ℕ} (hinv : SepInv ai)
    (h : elimLoop uk f ai l0 = some ai1) : SepInv ai1 := by
  induction f generalizing ai l0 with
  | zero => simp [elimLoop] at h
  | succ f ih =>
    rw [elimLoop] at h
    split at h
    · rcases hc : elimOuter uk ai (List.range ai.knowledge.length) with _ | ai2 <;>
        rw [hc] at h
      · simp at h
      · exact ih (elimOuter_sepInv huk hinv hc) h
    · cases Option.some_injective _ h
      exact hinv

lemma updateKnowledge_sepInv {f : ℕ} {ai ai1 : AI} {c : Finset Cell} {k : ℤ}
    (hinv : SepInv ai) (hs : ∀ x ∈ ai.safes, x ∉ c) (hm : ∀ x ∈ ai.mines, x ∉ c)
    (h : updateKnowledge f ai c k = some ai1) : SepInv ai1 := by
  induction f generalizing ai c k ai1 with
  | zero => simp [updateKnowledge] at h
  | succ f ih =>
    rw [updateKnowledge] at h
    rcases hp : propLoop f (ingestState ai c k)
        (ingestScan ai c k).1 (ingestScan ai c k).2 with _ | ai2 <;> rw [hp] at h
    · simp at h
    · exact elimLoop_sepInv (fun a c1 k1 a1 h1 h2 h3 hc => ih h1 h2 h3 hc)
        (propLoop_sepInv (ingestState_sepInv hinv hs hm) hp) h

lemma mem_neighborAcc_fst {ai : AI} {cell : Cell} {k : ℤ} {x : Cell}
    (h : x ∈ (neighborAcc ai cell k).1) : keepNeighbor ai x := by
  rw [neighborAcc, neighborFold_spec] at h
  rw [Finset.empty_union, List.mem_toFinset, List.mem_filter] at h
  exact of_decide_eq_true h.2

lemma addKnowledge_sepInv {f : ℕ} {ai ai1 : AI} {cell : Cell} {k : ℤ}
    (hinv : SepInv ai) (h : addKnowledge f ai cell k = some ai1) : SepInv ai1 := by
  unfold addKnowledge at h
  have hps : SepInv (playedState ai cell) := by
    unfold playedState
    apply markSafe_sepInv
    intro st hst
    exact hinv st hst
  exact updateKnowledge_sepInv hps
    (fun x hx hc => (mem_neighborAcc_fst hc).2.2.2 hx)
    (fun x hx hc => (mem_neighborAcc_fst hc).2.2.1 hx) h

/-- C7: in every state reachable through the public operations, no cell of
the known-safes or known-mines set appears in any sentence's cell set. -/
theorem C7_certain_cells_resolved {ai : AI} (h : Reachable ai) :
    ∀ st ∈ ai.knowledge,
      (∀ x ∈ ai.safes, x ∉ st.cells) ∧ (∀ x ∈ ai.mines, x ∉ st.cells) := by
  induction h with
  | init height width => intro st hst; simp [initAI] at hst
  | step f cell count hr hstep ih => exact addKnowledge_sepInv ih hstep

def C7state : AI := (addKnowledge 6 (initAI 2 2) (0, 0) 1).getD (initAI 0 0)

/-- Witness for C7 after one concrete hint on a 2-by-2 board. -/
theorem C7_certain_cells_resolved_witness :
    Reachable C7state ∧
    ∀ st ∈ C7state.knowledge,
      (∀ x ∈ C7state.safes, x ∉ st.cells) ∧ (∀ x ∈ C7state.mines, x ∉ st.cells) :=
  ⟨Reachable.step 6 (0, 0) 1 (Reachable.init 2 2) (by rfl),
   C7_certain_cells_resolved
     (Reachable.step 6 (0, 0) 1 (Reachable.init 2 2) (by rfl))⟩

/-!
## C5 and C6: soundness under hints consistent with one mine assignment

`M` is a fixed set of mined cells.  A sentence is sound for `M` when its
count is exactly the number of its cells that lie in `M`; the knowledge base
is sound when every sentence is, every known mine is in `M`, and no known
safe is.  Marking, construction normalization, scanning and subset
elimination all preserve soundness, which pins `count` between `0` and
`|cells|` and keeps the certainty sets disjoint.
-/

/-- A sentence is exact for the mine assignment `M`. -/
def SentOK (M : Finset Cell) (s : Sentence) : Prop :=
  ((s.cells ∩ M).card : ℤ) = s.count

/-- The whole knowledge base is sound for the mine assignment `M`. -/
def ConsAI (M : Finset Cell) (ai : AI) : Prop :=
  (∀ st ∈ ai.knowledge, SentOK M st) ∧ ai.mines ⊆ M ∧ (∀ x ∈ ai.safes, x ∉ M)

lemma erase_inter_of_not_mem {s M : Finset Cell} {c : Cell} (hc : c ∉ M) :
    s.erase c ∩ M = s ∩ M := by
  ext x
  simp only [Finset.mem_inter, Finset.mem_erase]
  constructor
  · rintro ⟨⟨_, h1⟩, h2⟩
    exact ⟨h1, h2⟩
  · rintro ⟨h1, h2⟩
    exact ⟨⟨fun he => hc (he ▸ h2), h1⟩, h2⟩

lemma erase_inter_of_mem {s M : Finset Cell} {c : Cell} :
    s.erase c ∩ M = (s ∩ M).erase c := by
  ext x
  simp only [Finset.mem_inter, Finset.mem_erase]
  tauto

lemma markSafe_sentOK {M : Finset Cell} {s : Sentence} (h : SentOK M s) {c : Cell}
    (hc : c ∉ M) : SentOK M (s.markSafe c) := by
  unfold Sentence.markSafe
  split
  · show ((s.cells.erase c ∩ M).card : ℤ) = s.count
    rw [erase_inter_of_not_mem hc]
    exact h
  · exact h

lemma markMine_sentOK {M : Finset Cell} {s : Sentence} (h : SentOK M s) {c : Cell}
    (hc : c ∈ M) : SentOK M (s.markMine c) := by
  unfold Sentence.markMine
  split
  · next hmem =>
    show ((s.cells.erase c ∩ M).card : ℤ) = s.count - 1
    rw [erase_inter_of_mem, Finset.card_erase_of_mem (Finset.mem_inter.mpr ⟨hmem, hc⟩)]
    have hpos : 1 ≤ (s.cells ∩ M).card :=
      Finset.card_pos.mpr ⟨c, Finset.mem_inter.mpr ⟨hmem, hc⟩⟩
    push_cast [hpos]
    rw [h]
  · exact h

lemma markSafe_consAI {M : Finset Cell} {ai : AI} (h : ConsAI M ai) {c : Cell}
    (hc : c ∉ M) : ConsAI M (ai.markSafe c) := by
  refine ⟨?_, ?_, ?_⟩
  · intro st1 hst1
    rw [AI.markSafe_knowledge, List.mem_map] at hst1
    obtain ⟨st, hst, rfl⟩ := hst1
    exact markSafe_sentOK (h.1 st hst) hc
  · exact h.2.1
  · intro x hx
    rw [AI.markSafe_safes, Finset.mem_insert] at hx
    rcases hx with rfl | hx
    · exact hc
    · exact h.2.2 x hx

lemma markMine_consAI {M : Finset Cell} {ai : AI} (h : ConsAI M ai) {c : Cell}
    (hc : c ∈ M) : ConsAI M (ai.markMine c) := by
  refine ⟨?_, ?_, ?_⟩
  · intro st1 hst1
    rw [AI.markMine_knowledge, List.mem_map] at hst1
    obtain ⟨st, hst, rfl⟩ := hst1
    exact markMine_sentOK (h.1 st hst) hc
  · rw [AI.markMine_mines]
    exact Finset.insert_subset hc h.2.1
  · exact h.2.2

lemma foldl_markSafe_consAI {M : Finset Cell} {ai : AI} {L : List Cell}
    (h : ConsAI M ai) (hL : ∀ x ∈ L, x ∉ M) : ConsAI M (L.foldl AI.markSafe ai) := by
  induction L generalizing ai with
  | nil => exact h
  | cons x L ih =>
    exact ih (markSafe_consAI h (hL x (List.mem_cons_self x L)))
      (fun y hy => hL y (List.mem_cons_of_mem x hy))

lemma foldl_markMine_consAI {M : Finset Cell} {ai : AI} {L : List Cell}
    (h : ConsAI M ai) (hL : ∀ x ∈ L, x ∈ M) : ConsAI M (L.foldl AI.markMine ai) := by
  induction L generalizing ai with
  | nil => exact h
  | cons x L ih =>
    exact ih (markMine_consAI h (hL x (List.mem_cons_self x L)))
      (fun y hy => hL y (List.mem_cons_of_mem x hy))

lemma subset_of_inter_card_eq {s M : Finset Cell} (h : (s ∩ M).card = s.card) : s ⊆ M := by
  have heq : s ∩ M = s :=
    Finset.eq_of_subset_of_card_le Finset.inter_subset_left (le_of_eq h.symm)
  intro x hx
  have hx2 : x ∈ s ∩ M := heq.symm ▸ hx
  exact (Finset.mem_inter.mp hx2).2

/-- Scanned safes of a sound knowledge base avoid `M`. -/
lemma scan_fst_not_mem {M : Finset Cell} {kn : List Sentence}
    (hok : ∀ st ∈ kn, SentOK M st) {x : Cell}
    (hx : x ∈ (scanKnowledge kn (∅, ∅)).1) : x ∉ M := by
  rw [mem_scan_fst] at hx
  rcases hx with hx | ⟨st, hst, h0, hcell⟩
  · simp at hx
  · have hzero : (st.cells ∩ M).card = 0 := by
      have := hok st hst
      rw [SentOK, h0] at this
      exact_mod_cast this
    rw [Finset.card_eq_zero] at hzero
    intro hM
    have : x ∈ st.cells ∩ M := Finset.mem_inter.mpr ⟨hcell, hM⟩
    rw [hzero] at this
    simp at this

/-- Scanned mines of a sound knowledge base lie in `M`. -/
lemma scan_snd_mem {M : Finset Cell} {kn : List Sentence}
    (hok : ∀ st ∈ kn, SentOK M st) {x : Cell}
    (hx : x ∈ (scanKnowledge kn (∅, ∅)).2) : x ∈ M := by
  rw [mem_scan_snd] at hx
  rcases hx with hx | ⟨st, hst, _, hfull, hcell⟩
  · simp at hx
  · have hcard : (st.cells ∩ M).card = st.cells.card := by
      have := hok st hst
      rw [SentOK] at this
      have := this.trans hfull.symm
      exact_mod_cast this
    exact subset_of_inter_card_eq hcard hcell

lemma propLoop_consAI {M : Finset Cell} {f : ℕ} {ai ai1 : AI} {s m : Finset Cell}
    (h : ConsAI M ai) (hs : ∀ x ∈ s, x ∉ M) (hm : ∀ x ∈ m, x ∈ M)
    (hrun : propLoop f ai s m = some ai1) : ConsAI M ai1 := by
  induction f generalizing ai s m with
  | zero => simp [propLoop] at hrun
  | succ f ih =>
    rw [propLoop] at hrun
    split at hrun
    · cases Option.some_injective _ hrun
      exact h
    · have h1 : ConsAI M ((cellList s).foldl AI.markSafe ai) :=
        foldl_markSafe_consAI h (fun x hx => hs x ((mem_cellList s x).mp hx))
      have h2 : ConsAI M ((cellList m).foldl AI.markMine
          ((cellList s).foldl AI.markSafe ai)) :=
        foldl_markMine_consAI h1 (fun x hx => hm x ((mem_cellList m x).mp hx))
      exact ih h2 (fun x hx => scan_fst_not_mem h2.1 hx) (fun x hx => scan_snd_mem h2.1 hx)
        hrun

lemma mkSentence_sentOK {M : Finset Cell} {c : Finset Cell} {k : ℤ}
    (hk : ((c ∩ M).card : ℤ) = k) : SentOK M (mkSentence c k) := by
  unfold mkSentence SentOK
  split
  · simp
  split
  · next h0 =>
    simp only
    rw [Finset.empty_inter M]
    simp [h0]
  · exact hk

lemma mkSentence_safes_not_mem {M : Finset Cell} {c : Finset Cell} {k : ℤ}
    (hk : ((c ∩ M).card : ℤ) = k) {x : Cell} (hx : x ∈ (mkSentence c k).safes) : x ∉ M := by
  unfold mkSentence at hx
  split at hx
  · simp at hx
  split at hx
  · next h0 =>
    simp only at hx
    rw [h0] at hk
    have hzero : (c ∩ M).card = 0 := by exact_mod_cast hk
    rw [Finset.card_eq_zero] at hzero
    intro hM
    have : x ∈ c ∩ M := Finset.mem_inter.mpr ⟨hx, hM⟩
    rw [hzero] at this
    simp at this
  · simp at hx

lemma mkSentence_mines_mem {M : Finset Cell} {c : Finset Cell} {k : ℤ}
    (hk : ((c ∩ M).card : ℤ) = k) {x : Cell} (hx : x ∈ (mkSentence c k).mines) : x ∈ M := by
  unfold mkSentence at hx
  split at hx
  · next hfull =>
    simp only at hx
    have hcard : (c ∩ M).card = c.card := by
      have := hk.trans hfull.symm
      exact_mod_cast this
    exact subset_of_inter_card_eq hcard hx
  split at hx
  · simp at hx
  · simp at hx

lemma ingestState_consAI {M : Finset Cell} {ai : AI} {c : Finset Cell} {k : ℤ}
    (h : ConsAI M ai) (hk : ((c ∩ M).card : ℤ) = k) : ConsAI M (ingestState ai c k) := by
  unfold ingestState
  split
  · exact h
  · refine ⟨?_, h.2.1, h.2.2⟩
    intro st hst
    rw [List.mem_append] at hst
    rcases hst with hst | hst
    · exact h.1 st hst
    · rw [List.mem_singleton] at hst
      subst hst
      exact mkSentence_sentOK hk

lemma sdiff_consistency {M : Finset Cell} {s1 s2 : Sentence} (h1 : SentOK M s1)
    (h2 : SentOK M s2) (hsub : s1.cells ⊆ s2.cells) :
    (((s2.cells \ s1.cells) ∩ M).card : ℤ) = s2.count - s1.count := by
  have hset : (s2.cells \ s1.cells) ∩ M = (s2.cells ∩ M) \ (s1.cells ∩ M) := by
    ext x
    simp only [Finset.mem_inter, Finset.mem_sdiff]
    tauto
  rw [hset, Finset.card_sdiff (Finset.inter_subset_inter_right hsub)]
  have hle : (s1.cells ∩ M).card ≤ (s2.cells ∩ M).card :=
    Finset.card_le_card (Finset.inter_subset_inter_right hsub)
  push_cast [hle]
  rw [h1, h2]

lemma elimInner_consAI {M : Finset Cell} {uk : AI → Finset Cell → ℤ → Option AI}
    (huk : ∀ ai c k ai1, ConsAI M ai → ((c ∩ M).card : ℤ) = k →
      uk ai c k = some ai1 → ConsAI M ai1)
    {js : List ℕ} {ai ai1 : AI} {i : ℕ} (hinv : ConsAI M ai)
    (h : elimInner uk ai i js = some ai1) : ConsAI M ai1 := by
  induction js generalizing ai with
  | nil =>
    rw [elimInner] at h
    cases Option.some_injective _ h
    exact hinv
  | cons j js ih =>
    rw [elimInner] at h
    rcases hi : ai.knowledge.get? i with _ | s1 <;> rw [hi] at h
    · exact ih hinv h
    rcases hj : ai.knowledge.get? j with _ | s2 <;> rw [hj] at h
    · exact ih hinv h
    simp only at h
    split at h
    · exact ih hinv h
    split at h
    · next hsub =>
      rcases hc : uk ai (s2.cells \ s1.cells) (s2.count - s1.count) with _ | ai2 <;>
        rw [hc] at h
      · simp at h
      · exact ih (huk ai _ _ ai2 hinv
          (sdiff_consistency (hinv.1 s1 (get_mem_knowledge hi))
            (hinv.1 s2 (get_mem_knowledge hj)) hsub) hc) h
    split at h
    · next hsub =>
      rcases hc : uk ai (s1.cells \ s2.cells) (s1.count - s2.count) with _ | ai2 <;>
        rw [hc] at h
      · simp at h
      · exact ih (huk ai _ _ ai2 hinv
          (sdiff_consistency (hinv.1 s2 (get_mem_knowledge hj))
            (hinv.1 s1 (get_mem_knowledge hi)) (le_of_lt hsub)) hc) h
    · exact ih hinv h

lemma elimOuter_consAI {M : Finset Cell} {uk : AI → Finset Cell → ℤ → Option AI}
    (huk : ∀ ai c k ai1, ConsAI M ai → ((c ∩ M).card : ℤ) = k →
      uk ai c k = some ai1 → ConsAI M ai1)
    {is : List ℕ} {ai ai1 : AI} (hinv : ConsAI M ai)
    (h : elimOuter uk ai is = some ai1) : ConsAI M ai1 := by
  induction is generalizing ai with
  | nil =>
    rw [elimOuter] at h
    cases Option.some_injective _ h
    exact hinv
  | cons i is ih =>
    rw [elimOuter] at h
    rcases hc : elimInner uk ai i (List.range ai.knowledge.length) with _ | ai2 <;>
      rw [hc] at h
    · simp at h
    · exact ih (elimInner_consAI huk hinv hc) h

lemma elimLoop_consAI {M : Finset Cell} {uk : AI → Finset Cell → ℤ → Option AI}
    (huk : ∀ ai c k ai1, ConsAI M ai → ((c ∩ M).card : ℤ) = k →
      uk ai c k = some ai1 → ConsAI M ai1)
    {f : ℕ} {ai ai1 : AI} {l0 : ℕ} (hinv : ConsAI M ai)
    (h : elimLoop uk f ai l0 = some ai1) : ConsAI M ai1 := by
  induction f generalizing ai l0 with
  | zero => simp [elimLoop] at h
  | succ f ih =>
    rw [elimLoop] at h
    split at h
    · rcases hc : elimOuter uk ai (List.range ai.knowledge.length) with _ | ai2 <;>
        rw [hc] at h
      · simp at h
      · exact ih (elimOuter_consAI huk hinv hc) h
    · cases Option.some_injective _ h
      exact hinv

lemma updateKnowledge_consAI {M : Finset Cell} {f : ℕ} {ai ai1 : AI} {c : Finset Cell}
    {k : ℤ} (hinv : ConsAI M ai) (hk : ((c ∩ M).card : ℤ) = k)
    (h : updateKnowledge f ai c k = some ai1) : ConsAI M ai1 := by
  induction f generalizing ai c k ai1 with
  | zero => simp [updateKnowledge] at h
  | succ f ih =>
    rw [updateKnowledge] at h
    rcases hp : propLoop f (ingestState ai c k)
        (ingestScan ai c k).1 (ingestScan ai c k).2 with _ | ai2 <;> rw [hp] at h
    · simp at h
    · have hing := ingestState_consAI hinv hk
      have hsc : ConsAI M ai2 := by
        apply propLoop_consAI hing ?_ ?_ hp
        · intro x hx
          rw [ingestScan, mem_scan_fst] at hx
          rcases hx with hx | ⟨st, hst, h0, hcell⟩
          · exact mkSentence_safes_not_mem hk hx
          · exact scan_fst_not_mem hing.1
              (by rw [mem_scan_fst]; exact Or.inr ⟨st, hst, h0, hcell⟩)
        · intro x hx
          rw [ingestScan, mem_scan_snd] at hx
          rcases hx with hx | ⟨st, hst, hne, hfull, hcell⟩
          · exact mkSentence_mines_mem hk hx
          · exact scan_snd_mem hing.1
              (by rw [mem_scan_snd]; exact Or.inr ⟨st, hst, hne, hfull, hcell⟩)
      exact elimLoop_consAI (fun a c1 k1 a1 h1 h2 hc => ih h1 h2 hc) hsc h

def C5badState : AI :=
  ((updateKnowledge 5 (initAI 8 8) {(0, 0), (0, 1)} 1).bind
    (fun s => updateKnowledge 9 s {(0, 0), (0, 1)} 0)).getD (initAI 0 0)

/-- Counterexample to C5 as stated: ingesting ({(0,0),(0,1)}, 1) and then the
contradictory ({(0,0),(0,1)}, 0) terminates and leaves a sentence with
count 1 and an empty cell set, violating count ≤ |cells|. -/
theorem C5_count_bounds_counterexample :
    (updateKnowledge 5 (initAI 8 8) {(0, 0), (0, 1)} 1).bind
        (fun s => updateKnowledge 9 s {(0, 0), (0, 1)} 0) = some C5badState ∧
      ¬ (∀ st ∈ C5badState.knowledge, 0 ≤ st.count ∧ st.count ≤ (st.cells.card : ℤ)) :=
  ⟨by rfl, by decide⟩

/-- The truthful hint for a played cell: the number of in-bounds grid
neighbors that carry a mine of the assignment `M` (what the board
collaborator's `nearby_mines` reports). -/
def trueHintCount (M : Finset Cell) (ai : AI) (cell : Cell) : ℤ :=
  ((((neighborsOf cell).toFinset.filter (fun n => onBoard ai n)) ∩ M).card : ℤ)

lemma claimed_consistent {M : Finset Cell} {ai : AI} (cell : Cell)
    (hmine : ai.mines ⊆ M) (hsafe : ∀ x ∈ ai.safes, x ∉ M)
    (hmoves : ∀ x ∈ ai.moves_made, x ∉ M) :
    ((claimedConstraintCells ai cell ∩ M).card : ℤ) =
      claimedConstraintCount ai cell (trueHintCount M ai cell) := by
  have e1 : claimedConstraintCells ai cell ∩ M =
      (neighborsOf cell).toFinset.filter
        (fun n => (onBoard ai n ∧ n ∈ M) ∧ n ∉ ai.mines) := by
    ext x
    simp only [claimedConstraintCells, Finset.mem_inter, Finset.mem_filter]
    constructor
    · rintro ⟨⟨hB, honb, hmv, hsf, hmn⟩, hM⟩
      exact ⟨hB, ⟨honb, hM⟩, hmn⟩
    · rintro ⟨hB, ⟨honb, hM⟩, hmn⟩
      exact ⟨⟨hB, honb, fun hmv => hmoves x hmv hM, fun hsf => hsafe x hsf hM, hmn⟩, hM⟩
  have e2 : ((neighborsOf cell).toFinset.filter (fun n => onBoard ai n)) ∩ M =
      (neighborsOf cell).toFinset.filter (fun n => onBoard ai n ∧ n ∈ M) := by
    ext x
    simp only [Finset.mem_inter, Finset.mem_filter]
    constructor
    · rintro ⟨⟨hB, honb⟩, hM⟩
      exact ⟨hB, honb, hM⟩
    · rintro ⟨hB, honb, hM⟩
      exact ⟨⟨hB, honb⟩, hM⟩
  have eQ : (neighborsOf cell).toFinset.filter
        (fun n => (onBoard ai n ∧ n ∈ M) ∧ n ∈ ai.mines) =
      (neighborsOf cell).toFinset.filter
        (fun n => onBoard ai n ∧ n ∉ ai.moves_made ∧ n ∈ ai.mines) := by
    apply Finset.filter_congr
    intro x hx
    constructor
    · rintro ⟨⟨honb, hM⟩, hmn⟩
      exact ⟨honb, fun hmv => hmoves x hmv hM, hmn⟩
    · rintro ⟨honb, hmv, hmn⟩
      exact ⟨⟨honb, hmine hmn⟩, hmn⟩
  have hsplit := Finset.filter_card_add_filter_neg_card_eq_card
    (s := (neighborsOf cell).toFinset.filter (fun n => onBoard ai n ∧ n ∈ M))
    (p := fun n => n ∈ ai.mines)
  rw [Finset.filter_filter, Finset.filter_filter, eQ] at hsplit
  unfold claimedConstraintCount trueHintCount
  rw [e1, e2]
  omega

/-- States reachable through the public operations when the board hints are
truthful for one fixed mine assignment `M` and no mined cell is ever
played. -/
inductive ConsPlayReach (M : Finset Cell) : AI → Prop
  | init (height width : ℕ) : ConsPlayReach M (initAI height width)
  | step {ai ai1 : AI} (f : ℕ) (cell : Cell) : ConsPlayReach M ai → cell ∉ M →
      addKnowledge f ai cell (trueHintCount M ai cell) = some ai1 → ConsPlayReach M ai1

lemma consPlayReach_inv {M : Finset Cell} {ai : AI} (h : ConsPlayReach M ai) :
    ConsAI M ai ∧ ∀ x ∈ ai.moves_made, x ∉ M := by
  induction h with
  | init height width =>
    refine ⟨⟨?_, ?_, ?_⟩, ?_⟩ <;> simp [initAI]
  | step f cell hr hcell hstep ih =>
    obtain ⟨hc, hm⟩ := ih
    next ai ai1 =>
    have hps_cons : ConsAI M (playedState ai cell) := by
      unfold playedState
      exact markSafe_consAI ⟨hc.1, hc.2.1, hc.2.2⟩ hcell
    have hps_moves : ∀ x ∈ (playedState ai cell).moves_made, x ∉ M := by
      intro x hx
      unfold playedState at hx
      rw [AI.markSafe_moves, Finset.mem_insert] at hx
      rcases hx with rfl | hx
      · exact hcell
      · exact hm x hx
    unfold addKnowledge at hstep
    dsimp only at hstep
    rw [neighborAcc_playedState] at hstep
    have hk := claimed_consistent (M := M) cell hc.2.1 hc.2.2 hm
    have hcons1 := updateKnowledge_consAI hps_cons hk hstep
    have hmoves1 : ∀ x ∈ ai1.moves_made, x ∉ M := by
      have := (updateKnowledge_stepOK hstep).2.2.1
      rw [← this]
      exact hps_moves
    exact ⟨hcons1, hmoves1⟩

/-- The observation points of a run with truthful hints: every
public-operation boundary (a `ConsPlayReach` state), and every state between
the internal steps `update_knowledge` performs from there — appending one
constraint (always exact for `M` at a sound state: the played-cell and
scanned constraints by `claimed_consistent` and the scan lemmas, the derived
subset-elimination constraints by `sdiff_consistency`) and applying one
`mark_safe` or `mark_mine` to a cell that is genuinely safe or genuinely
mined (as every scanned batch cell is, by `scan_fst_not_mem` and
`scan_snd_mem`). -/
inductive ConsObs (M : Finset Cell) : AI → Prop
  | boundary {ai : AI} : ConsPlayReach M ai → ConsObs M ai
  | ingest {ai : AI} (c : Finset Cell) (k : ℤ) : ConsObs M ai →
      ((c ∩ M).card : ℤ) = k → ConsObs M (ingestState ai c k)
  | safe {ai : AI} (x : Cell) : ConsObs M ai → x ∉ M → ConsObs M (ai.markSafe x)
  | mine {ai : AI} (x : Cell) : ConsObs M ai → x ∈ M → ConsObs M (ai.markMine x)

lemma consObs_consAI {M : Finset Cell} {ai : AI} (h : ConsObs M ai) :
    ConsAI M ai := by
  induction h with
  | boundary hp => exact (consPlayReach_inv hp).1
  | ingest c k hr hk ih => exact ingestState_consAI ih hk
  | safe x hr hx ih => exact markSafe_consAI ih hx
  | mine x hr hx ih => exact markMine_consAI ih hx

/-- C5 (amended): when the board's hints are truthful for one fixed mine
assignment, every sentence of the knowledge base satisfies
0 ≤ count ≤ |cells| at every observation point — between public operations
and between the internal append and marking steps. -/
theorem C5_count_bounds_consistent {M : Finset Cell} {ai : AI}
    (h : ConsObs M ai) :
    ∀ st ∈ ai.knowledge, 0 ≤ st.count ∧ st.count ≤ (st.cells.card : ℤ) := by
  intro st hst
  have hok := (consObs_consAI h).1 st hst
  rw [SentOK] at hok
  constructor
  · rw [← hok]
    positivity
  · rw [← hok]
    exact_mod_cast Finset.card_le_card Finset.inter_subset_left

def C5obsState : AI :=
  (((addKnowledge 6 (initAI 2 2) (0, 0)
        (trueHintCount {(1, 1)} (initAI 2 2) (0, 0))).getD
      (initAI 0 0)).markMine (1, 1)).markSafe (0, 1)

/-- Witness for the amended C5, with the mine assignment {(1,1)} on a 2-by-2
board: one truthful play of (0,0), then a mine-marking and a safe-marking
step. -/
theorem C5_count_bounds_consistent_witness :
    ConsObs {((1, 1) : Cell)} C5obsState ∧
    ∀ st ∈ C5obsState.knowledge, 0 ≤ st.count ∧ st.count ≤ (st.cells.card : ℤ) :=
  ⟨ConsObs.safe (0, 1)
      (ConsObs.mine (1, 1)
        (ConsObs.boundary
          (ConsPlayReach.step (M := {(1, 1)}) 6 (0, 0) (ConsPlayReach.init 2 2)
            (by decide) (by rfl)))
        (by decide))
      (by decide),
   C5_count_bounds_consistent
     (ConsObs.safe (0, 1)
       (ConsObs.mine (1, 1)
         (ConsObs.boundary
           (ConsPlayReach.step (M := {(1, 1)}) 6 (0, 0) (ConsPlayReach.init 2 2)
             (by decide) (by rfl)))
         (by decide))
       (by decide))⟩

/-- C6 (amended): under truthful hints for a fixed mine assignment, with no
mined cell ever played, the known-safe and known-mine sets stay disjoint in
every reachable state. -/
theorem C6_mutual_exclusion_consistent {M : Finset Cell} {ai : AI}
    (h : ConsPlayReach M ai) : ai.safes ∩ ai.mines = ∅ := by
  obtain ⟨hc, _⟩ := consPlayReach_inv h
  rw [Finset.eq_empty_iff_forall_not_mem]
  intro x hx
  rw [Finset.mem_inter] at hx
  exact hc.2.2 x hx.1 (hc.2.1 hx.2)

def C6badState : AI :=
  ((addKnowledge 9 (initAI 8 8) (0, 0) 3).bind
    (fun s => addKnowledge 9 s (0, 1) 0)).getD (initAI 0 0)

/-- Counterexample to C6 as stated: play (0,0) with hint 3 (all three
neighbors become known mines), then play the known mine (0,1); both calls
return, and (0,1) ends up in the known-safe and the known-mine set at once. -/
theorem C6_mutual_exclusion_counterexample :
    (addKnowledge 9 (initAI 8 8) (0, 0) 3).bind
        (fun s => addKnowledge 9 s (0, 1) 0) = some C6badState ∧
      ((0, 1) : Cell) ∈ C6badState.safes ∧ ((0, 1) : Cell) ∈ C6badState.mines ∧
      ¬ C6badState.safes ∩ C6badState.mines = ∅ :=
  ⟨by rfl, by decide, by decide, by decide⟩

def C6goodState : AI :=
  (addKnowledge 6 (initAI 2 2) (0, 0) (trueHintCount {(1, 1)} (initAI 2 2) (0, 0))).getD
    (initAI 0 0)

/-- Witness for the amended C6: one truthful play on a 2-by-2 board whose
only mine is (1,1). -/
theorem C6_mutual_exclusion_consistent_witness :
    C6goodState.safes ∩ C6goodState.mines = ∅ :=
  C6_mutual_exclusion_consistent
    (ConsPlayReach.step (M := {(1, 1)}) 6 (0, 0) (ConsPlayReach.init 2 2)
      (by decide) (by rfl))

/-!
## C3: the elimination recursion diverges
-/

def C3state1 : AI := ⟨8, 8, ∅, ∅, ∅, [⟨{(0, 0), (0, 1)}, ∅, ∅, 1⟩]⟩

def C3state2 : AI := ⟨8, 8, ∅, ∅, ∅,
  [⟨{(0, 0), (0, 1)}, ∅, ∅, 1⟩, ⟨{(0, 0), (0, 1), (0, 2), (0, 3)}, ∅, ∅, 2⟩]⟩

def C3state3 : AI := ⟨8, 8, ∅, ∅, ∅,
  [⟨{(0, 0), (0, 1)}, ∅, ∅, 1⟩, ⟨{(0, 0), (0, 1), (0, 2), (0, 3)}, ∅, ∅, 2⟩,
   ⟨{(0, 2), (0, 3)}, ∅, ∅, 1⟩]⟩

lemma propLoop_empty_batches (f : ℕ) (ai : AI) : propLoop (f + 1) ai ∅ ∅ = some ai := by
  simp [propLoop]

lemma elimLoop_stuck3 (uk : AI → Finset Cell → ℤ → Option AI)
    (h : uk C3state3 {(0, 2), (0, 3)} 1 = none) (f : ℕ) :
    elimLoop uk (f + 1) C3state3 0 = none := by
  simp only [C3state3] at h
  simp only [elimLoop, elimOuter, elimInner]
  simp +decide only [C3state3, List.range, List.range.loop, List.get?]
  simp only [if_true, if_false]
  rw [show ({(0, 0), (0, 1), (0, 2), (0, 3)} : Finset Cell) \ {(0, 0), (0, 1)} =
    {(0, 2), (0, 3)} from by decide]
  rw [show ((2 : ℤ) - 1) = 1 from by norm_num]
  rw [h]

lemma uK_diverges3 (g : ℕ) : updateKnowledge g C3state3 {(0, 2), (0, 3)} 1 = none := by
  induction g with
  | zero => rfl
  | succ g ih =>
    cases g with
    | zero => decide
    | succ g1 =>
      simp only [updateKnowledge]
      simp +decide only [ingestState, ingestScan, mkSentence, containsSent, sentEq,
        scanKnowledge, C3state3, if_true, if_false]
      rw [propLoop_empty_batches]
      exact elimLoop_stuck3 (updateKnowledge (g1 + 1)) ih g1

lemma uK_diverges2 (g : ℕ) : updateKnowledge g C3state2 {(0, 2), (0, 3)} 1 = none := by
  cases g with
  | zero => rfl
  | succ g =>
    cases g with
    | zero => decide
    | succ g1 =>
      simp only [updateKnowledge]
      simp +decide only [ingestState, ingestScan, mkSentence, containsSent, sentEq,
        scanKnowledge, C3state2, if_true, if_false, List.cons_append, List.nil_append]
      rw [propLoop_empty_batches]
      exact elimLoop_stuck3 (updateKnowledge (g1 + 1)) (uK_diverges3 (g1 + 1)) g1

lemma elimLoop_stuck2 (uk : AI → Finset Cell → ℤ → Option AI)
    (h : uk C3state2 {(0, 2), (0, 3)} 1 = none) (f : ℕ) :
    elimLoop uk (f + 1) C3state2 0 = none := by
  simp only [C3state2] at h
  simp only [elimLoop, elimOuter, elimInner]
  simp +decide only [C3state2, List.range, List.range.loop, List.get?]
  simp only [if_true, if_false]
  rw [show ({(0, 0), (0, 1), (0, 2), (0, 3)} : Finset Cell) \ {(0, 0), (0, 1)} =
    {(0, 2), (0, 3)} from by decide]
  rw [show ((2 : ℤ) - 1) = 1 from by norm_num]
  rw [h]

lemma uK_divergesTop (f : ℕ) :
    updateKnowledge f C3state1 {(0, 0), (0, 1), (0, 2), (0, 3)} 2 = none := by
  cases f with
  | zero => rfl
  | succ f =>
    cases f with
    | zero => decide
    | succ f1 =>
      simp only [updateKnowledge]
      simp +decide only [ingestState, ingestScan, mkSentence, containsSent, sentEq,
        scanKnowledge, C3state1, if_true, if_false, List.cons_append, List.nil_append]
      rw [propLoop_empty_batches]
      exact elimLoop_stuck2 (updateKnowledge (f1 + 1)) (uK_diverges2 (f1 + 1)) f1

/-- C3 fails on the code: after ingesting ({(0,0),(0,1)}, 1) on an 8-by-8
board (which terminates), ingesting the consistent constraint
({(0,0),(0,1),(0,2),(0,3)}, 2) never returns at any fuel: the elimination
pass derives ({(0,2),(0,3)}, 1), appends it, and the recursive
`update_knowledge` call then re-runs the same pass on an unchanged state,
reproducing itself forever. -/
theorem C3_elimination_diverges :
    updateKnowledge 5 (initAI 8 8) {(0, 0), (0, 1)} 1 = some C3state1 ∧
    ∀ f : ℕ, updateKnowledge f C3state1 {(0, 0), (0, 1), (0, 2), (0, 3)} 2 = none :=
  ⟨by decide, uK_divergesTop⟩

/-!
## C2: the knowledge base is a deduction fixpoint when `update_knowledge` returns

The propagation loop exits only when a rescan collects nothing, so no
degenerate sentence keeps a non-empty cell set; and the elimination loop
exits only after a pass in which either some recursive ingest ran last (and
by induction left a fixpoint) or no ordered pair qualified at all.
-/

/-- No direct deduction is available: every degenerate sentence has an empty
cell set. -/
def PropFix (ai : AI) : Prop :=
  ∀ st ∈ ai.knowledge,
    (st.count = 0 → st.cells = ∅) ∧ ((st.cells.card : ℤ) = st.count → st.cells = ∅)

/-- No subset elimination is available: the difference sentence of every
qualifying ordered pair is already in the base (by sentence equality). -/
def ElimFix (ai : AI) : Prop :=
  ∀ s1 ∈ ai.knowledge, ∀ s2 ∈ ai.knowledge,
    ¬ sentEq s1 s2 → s1.count ≠ 0 → s2.count ≠ 0 → s1.cells ⊆ s2.cells →
      containsSent ai.knowledge (mkSentence (s2.cells \ s1.cells) (s2.count - s1.count))

def Fixpoint (ai : AI) : Prop := PropFix ai ∧ ElimFix ai

/-- The elimination body at the ordered index pair (i, j) would make a
recursive `update_knowledge` call. -/
def Qualifies (ai : AI) (i j : ℕ) : Prop :=
  ∃ s1 s2, ai.knowledge.get? i = some s1 ∧ ai.knowledge.get? j = some s2 ∧
    ¬ sentEq s1 s2 ∧ s1.count ≠ 0 ∧ s2.count ≠ 0 ∧
    (s1.cells ⊆ s2.cells ∨ s2.cells ⊂ s1.cells)

lemma propFix_of_scan_empty {ai : AI}
    (h1 : (scanKnowledge ai.knowledge (∅, ∅)).1 = ∅)
    (h2 : (scanKnowledge ai.knowledge (∅, ∅)).2 = ∅) : PropFix ai := by
  intro st hst
  constructor
  · intro h0
    rw [Finset.eq_empty_iff_forall_not_mem]
    intro x hx
    have : x ∈ (scanKnowledge ai.knowledge (∅, ∅)).1 := by
      rw [mem_scan_fst]
      exact Or.inr ⟨st, hst, h0, hx⟩
    rw [h1] at this
    simp at this
  · intro hfull
    by_cases h0 : st.count = 0
    · rw [h0] at hfull
      rw [← Finset.card_eq_zero]
      exact_mod_cast hfull
    · rw [Finset.eq_empty_iff_forall_not_mem]
      intro x hx
      have : x ∈ (scanKnowledge ai.knowledge (∅, ∅)).2 := by
        rw [mem_scan_snd]
        exact Or.inr ⟨st, hst, h0, hfull, hx⟩
      rw [h2] at this
      simp at this

lemma propLoop_propFix {f : ℕ} {ai ai1 : AI} {s m : Finset Cell}
    (hs : (scanKnowledge ai.knowledge (∅, ∅)).1 ⊆ s)
    (hm : (scanKnowledge ai.knowledge (∅, ∅)).2 ⊆ m)
    (h : propLoop f ai s m = some ai1) : PropFix ai1 := by
  induction f generalizing ai s m with
  | zero => simp [propLoop] at h
  | succ f ih =>
    rw [propLoop] at h
    split at h
    · next hem =>
      cases Option.some_injective _ h
      apply propFix_of_scan_empty
      · exact Finset.subset_empty.mp (hem.1 ▸ hs)
      · exact Finset.subset_empty.mp (hem.2 ▸ hm)
    · exact ih (Finset.Subset.refl _) (Finset.Subset.refl _) h

lemma elimInner_post {uk : AI → Finset Cell → ℤ → Option AI}
    (huk : ∀ ai c k ai1, uk ai c k = some ai1 → Fixpoint ai1)
    {js : List ℕ} {ai ai1 : AI} {i : ℕ}
    (h : elimInner uk ai i js = some ai1) :
    Fixpoint ai1 ∨ (ai1 = ai ∧ ∀ j ∈ js, ¬ Qualifies ai i j) := by
  induction js generalizing ai with
  | nil =>
    rw [elimInner] at h
    cases Option.some_injective _ h
    exact Or.inr ⟨rfl, by simp⟩
  | cons j js ih =>
    rw [elimInner] at h
    rcases hi : ai.knowledge.get? i with _ | s1 <;> rw [hi] at h
    · rcases ih h with hfix | ⟨rfl, hnq⟩
      · exact Or.inl hfix
      · refine Or.inr ⟨rfl, ?_⟩
        intro j1 hj1
        rw [List.mem_cons] at hj1
        rcases hj1 with rfl | hj1
        · rintro ⟨t1, t2, ht1, _⟩
          rw [hi] at ht1
          simp at ht1
        · exact hnq j1 hj1
    rcases hj : ai.knowledge.get? j with _ | s2 <;> rw [hj] at h
    · rcases ih h with hfix | ⟨rfl, hnq⟩
      · exact Or.inl hfix
      · refine Or.inr ⟨rfl, ?_⟩
        intro j1 hj1
        rw [List.mem_cons] at hj1
        rcases hj1 with rfl | hj1
        · rintro ⟨t1, t2, ht1, ht2, _⟩
          rw [hj] at ht2
          simp at ht2
        · exact hnq j1 hj1
    simp only at h
    split at h
    · next hskip =>
      rcases ih h with hfix | ⟨rfl, hnq⟩
      · exact Or.inl hfix
      · refine Or.inr ⟨rfl, ?_⟩
        intro j1 hj1
        rw [List.mem_cons] at hj1
        rcases hj1 with rfl | hj1
        · rintro ⟨t1, t2, ht1, ht2, hne, hc1, hc2, _⟩
          rw [hi] at ht1
          rw [hj] at ht2
          cases Option.some_injective _ ht1
          cases Option.some_injective _ ht2
          rcases hskip with hskip | hskip | hskip
          · exact hne hskip
          · exact hc1 hskip
          · exact hc2 hskip
        · exact hnq j1 hj1
    split at h
    · rcases hc : uk ai (s2.cells \ s1.cells) (s2.count - s1.count) with _ | ai2 <;>
        rw [hc] at h
      · simp at h
      · rcases ih h with hfix | ⟨rfl, _⟩
        · exact Or.inl hfix
        · exact Or.inl (huk _ _ _ _ hc)
    split at h
    · rcases hc : uk ai (s1.cells \ s2.cells) (s1.count - s2.count) with _ | ai2 <;>
        rw [hc] at h
      · simp at h
      · rcases ih h with hfix | ⟨rfl, _⟩
        · exact Or.inl hfix
        · exact Or.inl (huk _ _ _ _ hc)
    · next hnsub1 hnsub2 =>
      rcases ih h with hfix | ⟨rfl, hnq⟩
      · exact Or.inl hfix
      · refine Or.inr ⟨rfl, ?_⟩
        intro j1 hj1
        rw [List.mem_cons] at hj1
        rcases hj1 with rfl | hj1
        · rintro ⟨t1, t2, ht1, ht2, hne, hc1, hc2, hsub⟩
          rw [hi] at ht1
          rw [hj] at ht2
          cases Option.some_injective _ ht1
          cases Option.some_injective _ ht2
          rcases hsub with hsub | hsub
          · exact hnsub1 hsub
          · exact hnsub2 hsub
        · exact hnq j1 hj1

lemma elimOuter_post {uk : AI → Finset Cell → ℤ → Option AI}
    (huk : ∀ ai c k ai1, uk ai c k = some ai1 → Fixpoint ai1)
    {is : List ℕ} {ai ai1 : AI}
    (h : elimOuter uk ai is = some ai1) :
    Fixpoint ai1 ∨
      (ai1 = ai ∧ ∀ i ∈ is, ∀ j < ai.knowledge.length, ¬ Qualifies ai i j) := by
  induction is generalizing ai with
  | nil =>
    rw [elimOuter] at h
    cases Option.some_injective _ h
    exact Or.inr ⟨rfl, by simp⟩
  | cons i is ih =>
    rw [elimOuter] at h
    rcases hc : elimInner uk ai i (List.range ai.knowledge.length) with _ | ai2 <;>
      rw [hc] at h
    · simp at h
    rcases elimInner_post huk hc with hfix | ⟨rfl, hnq⟩
    · rcases ih h with hfix1 | ⟨rfl, _⟩
      · exact Or.inl hfix1
      · exact Or.inl hfix
    · rcases ih h with hfix1 | ⟨rfl, hnq1⟩
      · exact Or.inl hfix1
      · refine Or.inr ⟨rfl, ?_⟩
        intro i1 hi1 j hj
        rw [List.mem_cons] at hi1
        rcases hi1 with rfl | hi1
        · exact hnq j (List.mem_range.mpr hj)
        · exact hnq1 i1 hi1 j hj

lemma fixpoint_of_no_qualifies {ai : AI} (hpf : PropFix ai)
    (hnq : ∀ i ∈ List.range ai.knowledge.length, ∀ j < ai.knowledge.length,
      ¬ Qualifies ai i j) : Fixpoint ai := by
  refine ⟨hpf, ?_⟩
  intro s1 hs1 s2 hs2 hne hc1 hc2 hsub
  obtain ⟨i, hi⟩ := List.mem_iff_get?.mp hs1
  obtain ⟨j, hj⟩ := List.mem_iff_get?.mp hs2
  have hilt : i < ai.knowledge.length := by
    by_contra hge
    rw [List.get?_eq_none.mpr (by omega)] at hi
    simp at hi
  have hjlt : j < ai.knowledge.length := by
    by_contra hge
    rw [List.get?_eq_none.mpr (by omega)] at hj
    simp at hj
  exact absurd ⟨s1, s2, hi, hj, hne, hc1, hc2, Or.inl hsub⟩
    (hnq i (List.mem_range.mpr hilt) j hjlt)

lemma elimLoop_post {uk : AI → Finset Cell → ℤ → Option AI}
    (huk : ∀ ai c k ai1, uk ai c k = some ai1 → Fixpoint ai1)
    {f : ℕ} {ai ai1 : AI} {l0 : ℕ} (hpf : PropFix ai)
    (h : elimLoop uk f ai l0 = some ai1) :
    Fixpoint ai1 ∨ (ai1 = ai ∧ ¬ l0 < ai.knowledge.length) := by
  induction f generalizing ai l0 with
  | zero => simp [elimLoop] at h
  | succ f ih =>
    rw [elimLoop] at h
    split at h
    · rcases hc : elimOuter uk ai (List.range ai.knowledge.length) with _ | ai2 <;>
        rw [hc] at h
      · simp at h
      rcases elimOuter_post huk hc with hfix | ⟨rfl, hnq⟩
      · rcases ih hfix.1 h with hfix1 | ⟨rfl, _⟩
        · exact Or.inl hfix1
        · exact Or.inl hfix
      · rcases ih hpf h with hfix1 | ⟨rfl, _⟩
        · exact Or.inl hfix1
        · exact Or.inl (fixpoint_of_no_qualifies hpf hnq)
    · cases Option.some_injective _ h
      next hcond => exact Or.inr ⟨rfl, hcond⟩

lemma foldl_markSafe_length (ai : AI) (L : List Cell) :
    (L.foldl AI.markSafe ai).knowledge.length = ai.knowledge.length := by
  induction L generalizing ai with
  | nil => rfl
  | cons x L ih =>
    rw [List.foldl_cons, ih]
    simp

lemma foldl_markMine_length (ai : AI) (L : List Cell) :
    (L.foldl AI.markMine ai).knowledge.length = ai.knowledge.length := by
  induction L generalizing ai with
  | nil => rfl
  | cons x L ih =>
    rw [List.foldl_cons, ih]
    simp

lemma propLoop_length {f : ℕ} {ai ai1 : AI} {s m : Finset Cell}
    (h : propLoop f ai s m = some ai1) :
    ai1.knowledge.length = ai.knowledge.length := by
  induction f generalizing ai s m with
  | zero => simp [propLoop] at h
  | succ f ih =>
    rw [propLoop] at h
    split at h
    · cases Option.some_injective _ h
      rfl
    · rw [ih h, foldl_markMine_length, foldl_markSafe_length]

lemma ingestState_length_pos (ai : AI) (c : Finset Cell) (k : ℤ) :
    0 < (ingestState ai c k).knowledge.length := by
  unfold ingestState
  split
  · next hmem =>
    obtain ⟨t, ht, _⟩ := hmem
    exact List.length_pos.mpr (List.ne_nil_of_mem ht)
  · simp

/-- When a terminating `update_knowledge` call returns, the base is at a
deduction fixpoint. -/
lemma updateKnowledge_fixpoint {f : ℕ} {ai ai1 : AI} {c : Finset Cell} {k : ℤ}
    (h : updateKnowledge f ai c k = some ai1) : Fixpoint ai1 := by
  induction f generalizing ai c k ai1 with
  | zero => simp [updateKnowledge] at h
  | succ f ih =>
    rw [updateKnowledge] at h
    rcases hp : propLoop f (ingestState ai c k)
        (ingestScan ai c k).1 (ingestScan ai c k).2 with _ | ai2 <;> rw [hp] at h
    · simp at h
    have hpf : PropFix ai2 := by
      apply propLoop_propFix ?_ ?_ hp
      · intro x hx
        rw [ingestScan, mem_scan_fst]
        rw [mem_scan_fst] at hx
        rcases hx with hx | hx
        · simp at hx
        · exact Or.inr hx
      · intro x hx
        rw [ingestScan, mem_scan_snd]
        rw [mem_scan_snd] at hx
        rcases hx with hx | hx
        · simp at hx
        · exact Or.inr hx
    rcases elimLoop_post (fun a c1 k1 a1 hc => ih hc) hpf h with hfix | ⟨rfl, hlen⟩
    · exact hfix
    · exfalso
      apply hlen
      rw [propLoop_length hp]
      exact ingestState_length_pos ai c k

/-- C2: after any terminating call of `update_knowledge`, the knowledge base
is a deduction fixpoint: no sentence with count 0 keeps cells, no sentence's
cell count equals its (non-trivial) size, and the difference sentence of
every ordered pair of distinct positive-count sentences in subset position is
already in the base. -/
theorem C2_ingest_reaches_fixpoint {f : ℕ} {ai ai1 : AI} {c : Finset Cell} {k : ℤ}
    (h : updateKnowledge f ai c k = some ai1) :
    (∀ st ∈ ai1.knowledge, st.count = 0 → st.cells = ∅) ∧
    (∀ st ∈ ai1.knowledge, (st.cells.card : ℤ) = st.count → st.cells = ∅) ∧
    (∀ s1 ∈ ai1.knowledge, ∀ s2 ∈ ai1.knowledge,
      ¬ sentEq s1 s2 → 0 < s1.count → 0 < s2.count → s1.cells ⊆ s2.cells →
        containsSent ai1.knowledge
          (mkSentence (s2.cells \ s1.cells) (s2.count - s1.count))) := by
  obtain ⟨hpf, hef⟩ := updateKnowledge_fixpoint h
  refine ⟨fun st hst => (hpf st hst).1, fun st hst => (hpf st hst).2, ?_⟩
  intro s1 hs1 s2 hs2 hne hp1 hp2 hsub
  exact hef s1 hs1 s2 hs2 hne (ne_of_gt hp1) (ne_of_gt hp2) hsub

def C2state : AI :=
  (updateKnowledge 6 (initAI 2 2) {(0, 0), (0, 1)} 1).getD (initAI 0 0)

/-- Witness for C2 after one concrete terminating ingest. -/
theorem C2_ingest_reaches_fixpoint_witness :
    (∀ st ∈ C2state.knowledge, st.count = 0 → st.cells = ∅) ∧
    (∀ st ∈ C2state.knowledge, (st.cells.card : ℤ) = st.count → st.cells = ∅) ∧
    (∀ s1 ∈ C2state.knowledge, ∀ s2 ∈ C2state.knowledge,
      ¬ sentEq s1 s2 → 0 < s1.count → 0 < s2.count → s1.cells ⊆ s2.cells →
        containsSent C2state.knowledge
          (mkSentence (s2.cells \ s1.cells) (s2.count - s1.count))) :=
  @C2_ingest_reaches_fixpoint 6 (initAI 2 2) C2state {(0, 0), (0, 1)} 1 (by rfl)

/-!
## C1: subset elimination deduces the difference cell safe
-/

lemma cell_not_mem_pair {a b c : Cell} (hac : a ≠ c) (hbc : b ≠ c) :
    c ∉ ({a, b} : Finset Cell) := by
  simp only [Finset.mem_insert, Finset.mem_singleton]
  push_neg
  exact ⟨fun e => hac e.symm, fun e => hbc e.symm⟩

lemma triple_card {a b c : Cell} (hab : a ≠ b) (hac : a ≠ c) (hbc : b ≠ c) :
    ({a, b, c} : Finset Cell).card = 3 := by
  rw [Finset.card_insert_of_not_mem (by simp [hab, hac]),
    Finset.card_insert_of_not_mem (by simp [hbc]), Finset.card_singleton]

lemma pair_card {a b : Cell} (hab : a ≠ b) : ({a, b} : Finset Cell).card = 2 := by
  rw [Finset.card_insert_of_not_mem (by simp [hab]), Finset.card_singleton]

lemma triple_erase {a b c : Cell} (hac : a ≠ c) (hbc : b ≠ c) :
    ({a, b, c} : Finset Cell).erase c = {a, b} := by
  ext x
  simp only [Finset.mem_erase, Finset.mem_insert, Finset.mem_singleton]
  constructor
  · rintro ⟨hxc, rfl | rfl | rfl⟩ <;> tauto
  · rintro (rfl | rfl)
    · exact ⟨hac, by tauto⟩
    · exact ⟨hbc, by tauto⟩

lemma triple_sdiff {a b c : Cell} (hac : a ≠ c) (hbc : b ≠ c) :
    ({a, b, c} : Finset Cell) \ {a, b} = {c} := by
  have hcm := cell_not_mem_pair hac hbc
  ext x
  simp only [Finset.mem_sdiff, Finset.mem_insert, Finset.mem_singleton]
  constructor
  · rintro ⟨rfl | rfl | rfl, hx⟩ <;> tauto
  · rintro rfl
    refine ⟨by tauto, ?_⟩
    intro hx
    apply hcm
    simpa using hx

lemma pair_ne_triple {a b c : Cell} (hac : a ≠ c) (hbc : b ≠ c) :
    ¬ (({a, b} : Finset Cell) = {a, b, c}) := by
  intro he
  apply cell_not_mem_pair hac hbc
  rw [he]
  simp

lemma triple_ne_pair {a b c : Cell} (hac : a ≠ c) (hbc : b ≠ c) :
    ¬ (({a, b, c} : Finset Cell) = {a, b}) :=
  fun he => pair_ne_triple hac hbc he.symm

lemma triple_not_subset_pair {a b c : Cell} (hac : a ≠ c) (hbc : b ≠ c) :
    ¬ (({a, b, c} : Finset Cell) ⊆ {a, b}) := by
  intro hsub
  exact cell_not_mem_pair hac hbc (hsub (by simp))

lemma pair_ssubset_triple {a b c : Cell} (hac : a ≠ c) (hbc : b ≠ c) :
    ({a, b} : Finset Cell) ⊂ {a, b, c} := by
  constructor
  · intro x hx
    simp only [Finset.mem_insert, Finset.mem_singleton] at hx ⊢
    tauto
  · exact triple_not_subset_pair hac hbc

lemma pair_subset_triple {a b c : Cell} :
    ({a, b} : Finset Cell) ⊆ {a, b, c} := by
  intro x hx
  simp only [Finset.mem_insert, Finset.mem_singleton] at hx ⊢
  tauto

lemma C1_first_ingest_o1 {a b c : Cell} {h w : ℕ} (hab : a ≠ b) (hac : a ≠ c)
    (hbc : b ≠ c) :
    updateKnowledge 8 (initAI h w) {a, b, c} 1 =
      some ⟨h, w, ∅, ∅, ∅, [⟨{a, b, c}, ∅, ∅, 1⟩]⟩ := by
  have h3 := triple_card hab hac hbc
  simp [updateKnowledge, ingestState, ingestScan, mkSentence, containsSent, sentEq,
    scanKnowledge, propLoop, elimLoop, elimOuter, elimInner, initAI, h3,
    List.range_succ]

lemma C1_first_ingest_o2 {a b : Cell} {h w : ℕ} (hab : a ≠ b) :
    updateKnowledge 8 (initAI h w) {a, b} 1 =
      some ⟨h, w, ∅, ∅, ∅, [⟨{a, b}, ∅, ∅, 1⟩]⟩ := by
  have h2 := pair_card hab
  simp [updateKnowledge, ingestState, ingestScan, mkSentence, containsSent, sentEq,
    scanKnowledge, propLoop, elimLoop, elimOuter, elimInner, initAI, h2,
    List.range_succ]

lemma C1_elim_stable_o1 {a b c : Cell} {h w : ℕ}
    (uk : AI → Finset Cell → ℤ → Option AI) (f l0 : ℕ) (hl0 : l0 < 3) :
    elimLoop uk (f + 2) (⟨h, w, ∅, ∅, {c},
        [⟨{a, b}, ∅, {c}, 1⟩, ⟨{a, b}, ∅, ∅, 1⟩, ⟨∅, ∅, {c}, 0⟩]⟩ : AI) l0 =
      some ⟨h, w, ∅, ∅, {c},
        [⟨{a, b}, ∅, {c}, 1⟩, ⟨{a, b}, ∅, ∅, 1⟩, ⟨∅, ∅, {c}, 0⟩]⟩ := by
  have hpass : elimOuter uk (⟨h, w, ∅, ∅, {c},
      [⟨{a, b}, ∅, {c}, 1⟩, ⟨{a, b}, ∅, ∅, 1⟩, ⟨∅, ∅, {c}, 0⟩]⟩ : AI) [0, 1, 2] =
      some ⟨h, w, ∅, ∅, {c},
        [⟨{a, b}, ∅, {c}, 1⟩, ⟨{a, b}, ∅, ∅, 1⟩, ⟨∅, ∅, {c}, 0⟩]⟩ := by
    simp [elimOuter, elimInner, sentEq, List.range_succ]
  rw [show f + 2 = (f + 1) + 1 from rfl, elimLoop]
  rw [show (⟨h, w, ∅, ∅, {c},
      [⟨({a, b} : Finset Cell), ∅, {c}, 1⟩, ⟨{a, b}, ∅, ∅, 1⟩,
        ⟨∅, ∅, {c}, 0⟩]⟩ : AI).knowledge.length = 3 from rfl]
  rw [if_pos hl0, show List.range 3 = [0, 1, 2] from rfl, hpass]
  dsimp only
  rw [elimLoop]
  rw [show (⟨h, w, ∅, ∅, {c},
      [⟨({a, b} : Finset Cell), ∅, {c}, 1⟩, ⟨{a, b}, ∅, ∅, 1⟩,
        ⟨∅, ∅, {c}, 0⟩]⟩ : AI).knowledge.length = 3 from rfl]
  rw [if_neg (by norm_num)]

lemma C1_inner_o1 {a b c : Cell} {h w : ℕ} (hab : a ≠ b) (hac : a ≠ c) (hbc : b ≠ c) :
    updateKnowledge 7 (⟨h, w, ∅, ∅, ∅,
        [⟨{a, b, c}, ∅, ∅, 1⟩, ⟨{a, b}, ∅, ∅, 1⟩]⟩ : AI) {c} 0 =
      some ⟨h, w, ∅, ∅, {c},
        [⟨{a, b}, ∅, {c}, 1⟩, ⟨{a, b}, ∅, ∅, 1⟩, ⟨∅, ∅, {c}, 0⟩]⟩ := by
  have h3 := triple_card hab hac hbc
  have h2 := pair_card hab
  have hcm := cell_not_mem_pair hac hbc
  have her := triple_erase hac hbc
  rw [updateKnowledge]
  have e_ing : ingestState (⟨h, w, ∅, ∅, ∅,
      [⟨{a, b, c}, ∅, ∅, 1⟩, ⟨{a, b}, ∅, ∅, 1⟩]⟩ : AI) {c} 0 =
      ⟨h, w, ∅, ∅, ∅,
        [⟨{a, b, c}, ∅, ∅, 1⟩, ⟨{a, b}, ∅, ∅, 1⟩, ⟨∅, ∅, {c}, 0⟩]⟩ := by
    simp [ingestState, containsSent, sentEq, mkSentence]
  have e_scan : ingestScan (⟨h, w, ∅, ∅, ∅,
      [⟨{a, b, c}, ∅, ∅, 1⟩, ⟨{a, b}, ∅, ∅, 1⟩]⟩ : AI) {c} 0 = ({c}, ∅) := by
    simp [ingestScan, ingestState, containsSent, sentEq, mkSentence, scanKnowledge, h3, h2]
  rw [e_ing, e_scan]
  have e_prop : propLoop 6 (⟨h, w, ∅, ∅, ∅,
      [⟨{a, b, c}, ∅, ∅, 1⟩, ⟨{a, b}, ∅, ∅, 1⟩, ⟨∅, ∅, {c}, 0⟩]⟩ : AI) {c} ∅ =
      some ⟨h, w, ∅, ∅, {c},
        [⟨{a, b}, ∅, {c}, 1⟩, ⟨{a, b}, ∅, ∅, 1⟩, ⟨∅, ∅, {c}, 0⟩]⟩ := by
    rw [propLoop, if_neg (by simp)]
    have hmark : ((cellList ({c} : Finset Cell)).foldl AI.markSafe
        (⟨h, w, ∅, ∅, ∅,
          [⟨{a, b, c}, ∅, ∅, 1⟩, ⟨{a, b}, ∅, ∅, 1⟩, ⟨∅, ∅, {c}, 0⟩]⟩ : AI)) =
        ⟨h, w, ∅, ∅, {c},
          [⟨{a, b}, ∅, {c}, 1⟩, ⟨{a, b}, ∅, ∅, 1⟩, ⟨∅, ∅, {c}, 0⟩]⟩ := by
      rw [show cellList ({c} : Finset Cell) = [c] from rfl]
      simp [AI.markSafe, Sentence.markSafe, hcm, her]
    show propLoop 5 _ _ _ = _
    rw [show cellList (∅ : Finset Cell) = [] from rfl, hmark]
    rw [show (List.foldl AI.markMine (⟨h, w, ∅, ∅, {c},
        [⟨{a, b}, ∅, {c}, 1⟩, ⟨{a, b}, ∅, ∅, 1⟩, ⟨∅, ∅, {c}, 0⟩]⟩ : AI) []) =
        ⟨h, w, ∅, ∅, {c},
        [⟨{a, b}, ∅, {c}, 1⟩, ⟨{a, b}, ∅, ∅, 1⟩, ⟨∅, ∅, {c}, 0⟩]⟩ from rfl]
    have hscan : scanKnowledge
        [⟨({a, b} : Finset Cell), ∅, {c}, 1⟩, ⟨{a, b}, ∅, ∅, 1⟩, ⟨∅, ∅, {c}, 0⟩]
        (∅, ∅) = (∅, ∅) := by
      simp [scanKnowledge, h2]
    simp only [hscan]
    rw [propLoop, if_pos ⟨rfl, rfl⟩]
  rw [e_prop]
  dsimp only
  exact C1_elim_stable_o1 (updateKnowledge 6) 4 0 (by norm_num)

lemma C1_second_ingest_o1 {a b c : Cell} {h w : ℕ} (hab : a ≠ b) (hac : a ≠ c)
    (hbc : b ≠ c) :
    updateKnowledge 8 (⟨h, w, ∅, ∅, ∅, [⟨{a, b, c}, ∅, ∅, 1⟩]⟩ : AI) {a, b} 1 =
      some ⟨h, w, ∅, ∅, {c},
        [⟨{a, b}, ∅, {c}, 1⟩, ⟨{a, b}, ∅, ∅, 1⟩, ⟨∅, ∅, {c}, 0⟩]⟩ := by
  have h3 := triple_card hab hac hbc
  have h2 := pair_card hab
  have hne1 := pair_ne_triple hac hbc
  have hne2 := triple_ne_pair hac hbc
  have hnsub := triple_not_subset_pair hac hbc
  have hssub := pair_ssubset_triple hac hbc
  have hsd := triple_sdiff hac hbc
  rw [updateKnowledge]
  have e_ing : ingestState (⟨h, w, ∅, ∅, ∅, [⟨{a, b, c}, ∅, ∅, 1⟩]⟩ : AI) {a, b} 1 =
      ⟨h, w, ∅, ∅, ∅, [⟨{a, b, c}, ∅, ∅, 1⟩, ⟨{a, b}, ∅, ∅, 1⟩]⟩ := by
    simp [ingestState, containsSent, sentEq, mkSentence, h2, hne1]
  have e_scan : ingestScan (⟨h, w, ∅, ∅, ∅, [⟨{a, b, c}, ∅, ∅, 1⟩]⟩ : AI) {a, b} 1 =
      (∅, ∅) := by
    simp [ingestScan, ingestState, containsSent, sentEq, mkSentence, scanKnowledge,
      h3, h2, hne1]
  rw [e_ing, e_scan]
  rw [propLoop_empty_batches]
  dsimp only
  rw [elimLoop]
  rw [show (⟨h, w, ∅, ∅, ∅,
      [⟨({a, b, c} : Finset Cell), ∅, ∅, 1⟩,
        ⟨{a, b}, ∅, ∅, 1⟩]⟩ : AI).knowledge.length = 2 from rfl]
  rw [if_pos (by norm_num), show List.range 2 = [0, 1] from rfl]
  have e_pair : elimInner (updateKnowledge 7) (⟨h, w, ∅, ∅, ∅,
      [⟨{a, b, c}, ∅, ∅, 1⟩, ⟨{a, b}, ∅, ∅, 1⟩]⟩ : AI) 0
      (List.range (⟨h, w, ∅, ∅, ∅,
        [⟨({a, b, c} : Finset Cell), ∅, ∅, 1⟩,
          ⟨{a, b}, ∅, ∅, 1⟩]⟩ : AI).knowledge.length) =
      some ⟨h, w, ∅, ∅, {c},
        [⟨{a, b}, ∅, {c}, 1⟩, ⟨{a, b}, ∅, ∅, 1⟩, ⟨∅, ∅, {c}, 0⟩]⟩ := by
    show elimInner (updateKnowledge 7) (⟨h, w, ∅, ∅, ∅,
      [⟨{a, b, c}, ∅, ∅, 1⟩, ⟨{a, b}, ∅, ∅, 1⟩]⟩ : AI) 0 [0, 1] = _
    rw [elimInner]
    rw [show (⟨h, w, ∅, ∅, ∅,
        [⟨({a, b, c} : Finset Cell), ∅, ∅, 1⟩,
          ⟨{a, b}, ∅, ∅, 1⟩]⟩ : AI).knowledge.get? 0 =
        some ⟨{a, b, c}, ∅, ∅, 1⟩ from rfl]
    dsimp only
    rw [if_pos (Or.inl ⟨rfl, rfl⟩)]
    rw [elimInner]
    rw [show (⟨h, w, ∅, ∅, ∅,
        [⟨({a, b, c} : Finset Cell), ∅, ∅, 1⟩,
          ⟨{a, b}, ∅, ∅, 1⟩]⟩ : AI).knowledge.get? 0 =
        some ⟨{a, b, c}, ∅, ∅, 1⟩ from rfl]
    rw [show (⟨h, w, ∅, ∅, ∅,
        [⟨({a, b, c} : Finset Cell), ∅, ∅, 1⟩,
          ⟨{a, b}, ∅, ∅, 1⟩]⟩ : AI).knowledge.get? 1 =
        some ⟨{a, b}, ∅, ∅, 1⟩ from rfl]
    dsimp only
    rw [if_neg (by simp [sentEq, hne2])]
    rw [if_neg (by simpa using hnsub)]
    rw [if_pos (by simpa using hssub)]
    rw [show (⟨({a, b, c} : Finset Cell), ∅, ∅, (1 : ℤ)⟩ : Sentence).cells \
        (⟨({a, b} : Finset Cell), ∅, ∅, (1 : ℤ)⟩ : Sentence).cells = {c} from hsd]
    rw [show (⟨({a, b, c} : Finset Cell), ∅, ∅, (1 : ℤ)⟩ : Sentence).count -
        (⟨({a, b} : Finset Cell), ∅, ∅, (1 : ℤ)⟩ : Sentence).count = 0 from by norm_num]
    rw [C1_inner_o1 hab hac hbc]
    dsimp only
    rw [elimInner]
  rw [elimOuter, e_pair]
  dsimp only
  have e_p2 : elimInner (updateKnowledge 7) (⟨h, w, ∅, ∅, {c},
      [⟨{a, b}, ∅, {c}, 1⟩, ⟨{a, b}, ∅, ∅, 1⟩, ⟨∅, ∅, {c}, 0⟩]⟩ : AI) 1
      (List.range (⟨h, w, ∅, ∅, {c},
        [⟨({a, b} : Finset Cell), ∅, {c}, 1⟩, ⟨{a, b}, ∅, ∅, 1⟩,
          ⟨∅, ∅, {c}, 0⟩]⟩ : AI).knowledge.length) =
      some ⟨h, w, ∅, ∅, {c},
        [⟨{a, b}, ∅, {c}, 1⟩, ⟨{a, b}, ∅, ∅, 1⟩, ⟨∅, ∅, {c}, 0⟩]⟩ := by
    simp [elimInner, sentEq, List.range_succ]
  rw [elimOuter, e_p2]
  dsimp only
  rw [elimOuter]
  exact C1_elim_stable_o1 (updateKnowledge 7) 4 2 (by norm_num)

lemma C1_elim_stable_o2 {a b c : Cell} {h w : ℕ}
    (uk : AI → Finset Cell → ℤ → Option AI) (f l0 : ℕ) (hl0 : l0 < 3) :
    elimLoop uk (f + 2) (⟨h, w, ∅, ∅, {c},
        [⟨{a, b}, ∅, ∅, 1⟩, ⟨{a, b}, ∅, {c}, 1⟩, ⟨∅, ∅, {c}, 0⟩]⟩ : AI) l0 =
      some ⟨h, w, ∅, ∅, {c},
        [⟨{a, b}, ∅, ∅, 1⟩, ⟨{a, b}, ∅, {c}, 1⟩, ⟨∅, ∅, {c}, 0⟩]⟩ := by
  have hpass : elimOuter uk (⟨h, w, ∅, ∅, {c},
      [⟨{a, b}, ∅, ∅, 1⟩, ⟨{a, b}, ∅, {c}, 1⟩, ⟨∅, ∅, {c}, 0⟩]⟩ : AI) [0, 1, 2] =
      some ⟨h, w, ∅, ∅, {c},
        [⟨{a, b}, ∅, ∅, 1⟩, ⟨{a, b}, ∅, {c}, 1⟩, ⟨∅, ∅, {c}, 0⟩]⟩ := by
    simp [elimOuter, elimInner, sentEq, List.range_succ]
  rw [show f + 2 = (f + 1) + 1 from rfl, elimLoop]
  rw [show (⟨h, w, ∅, ∅, {c},
      [⟨({a, b} : Finset Cell), ∅, ∅, 1⟩, ⟨{a, b}, ∅, {c}, 1⟩,
        ⟨∅, ∅, {c}, 0⟩]⟩ : AI).knowledge.length = 3 from rfl]
  rw [if_pos hl0, show List.range 3 = [0, 1, 2] from rfl, hpass]
  dsimp only
  rw [elimLoop]
  rw [show (⟨h, w, ∅, ∅, {c},
      [⟨({a, b} : Finset Cell), ∅, ∅, 1⟩, ⟨{a, b}, ∅, {c}, 1⟩,
        ⟨∅, ∅, {c}, 0⟩]⟩ : AI).knowledge.length = 3 from rfl]
  rw [if_neg (by norm_num)]

lemma C1_inner_o2 {a b c : Cell} {h w : ℕ} (hab : a ≠ b) (hac : a ≠ c) (hbc : b ≠ c) :
    updateKnowledge 7 (⟨h, w, ∅, ∅, ∅,
        [⟨{a, b}, ∅, ∅, 1⟩, ⟨{a, b, c}, ∅, ∅, 1⟩]⟩ : AI) {c} 0 =
      some ⟨h, w, ∅, ∅, {c},
        [⟨{a, b}, ∅, ∅, 1⟩, ⟨{a, b}, ∅, {c}, 1⟩, ⟨∅, ∅, {c}, 0⟩]⟩ := by
  have h3 := triple_card hab hac hbc
  have h2 := pair_card hab
  have hcm := cell_not_mem_pair hac hbc
  have her := triple_erase hac hbc
  rw [updateKnowledge]
  have e_ing : ingestState (⟨h, w, ∅, ∅, ∅,
      [⟨{a, b}, ∅, ∅, 1⟩, ⟨{a, b, c}, ∅, ∅, 1⟩]⟩ : AI) {c} 0 =
      ⟨h, w, ∅, ∅, ∅,
        [⟨{a, b}, ∅, ∅, 1⟩, ⟨{a, b, c}, ∅, ∅, 1⟩, ⟨∅, ∅, {c}, 0⟩]⟩ := by
    simp [ingestState, containsSent, sentEq, mkSentence]
  have e_scan : ingestScan (⟨h, w, ∅, ∅, ∅,
      [⟨{a, b}, ∅, ∅, 1⟩, ⟨{a, b, c}, ∅, ∅, 1⟩]⟩ : AI) {c} 0 = ({c}, ∅) := by
    simp [ingestScan, ingestState, containsSent, sentEq, mkSentence, scanKnowledge, h3, h2]
  rw [e_ing, e_scan]
  have e_prop : propLoop 6 (⟨h, w, ∅, ∅, ∅,
      [⟨{a, b}, ∅, ∅, 1⟩, ⟨{a, b, c}, ∅, ∅, 1⟩, ⟨∅, ∅, {c}, 0⟩]⟩ : AI) {c} ∅ =
      some ⟨h, w, ∅, ∅, {c},
        [⟨{a, b}, ∅, ∅, 1⟩, ⟨{a, b}, ∅, {c}, 1⟩, ⟨∅, ∅, {c}, 0⟩]⟩ := by
    rw [propLoop, if_neg (by simp)]
    have hmark : ((cellList ({c} : Finset Cell)).foldl AI.markSafe
        (⟨h, w, ∅, ∅, ∅,
          [⟨{a, b}, ∅, ∅, 1⟩, ⟨{a, b, c}, ∅, ∅, 1⟩, ⟨∅, ∅, {c}, 0⟩]⟩ : AI)) =
        ⟨h, w, ∅, ∅, {c},
          [⟨{a, b}, ∅, ∅, 1⟩, ⟨{a, b}, ∅, {c}, 1⟩, ⟨∅, ∅, {c}, 0⟩]⟩ := by
      rw [show cellList ({c} : Finset Cell) = [c] from rfl]
      simp [AI.markSafe, Sentence.markSafe, hcm, her]
    show propLoop 5 _ _ _ = _
    rw [show cellList (∅ : Finset Cell) = [] from rfl, hmark]
    rw [show (List.foldl AI.markMine (⟨h, w, ∅, ∅, {c},
        [⟨{a, b}, ∅, ∅, 1⟩, ⟨{a, b}, ∅, {c}, 1⟩, ⟨∅, ∅, {c}, 0⟩]⟩ : AI) []) =
        ⟨h, w, ∅, ∅, {c},
        [⟨{a, b}, ∅, ∅, 1⟩, ⟨{a, b}, ∅, {c}, 1⟩, ⟨∅, ∅, {c}, 0⟩]⟩ from rfl]
    have hscan : scanKnowledge
        [⟨({a, b} : Finset Cell), ∅, ∅, 1⟩, ⟨{a, b}, ∅, {c}, 1⟩, ⟨∅, ∅, {c}, 0⟩]
        (∅, ∅) = (∅, ∅) := by
      simp [scanKnowledge, h2]
    simp only [hscan]
    rw [propLoop, if_pos ⟨rfl, rfl⟩]
  rw [e_prop]
  dsimp only
  exact C1_elim_stable_o2 (updateKnowledge 6) 4 0 (by norm_num)

lemma C1_second_ingest_o2 {a b c : Cell} {h w : ℕ} (hab : a ≠ b) (hac : a ≠ c)
    (hbc : b ≠ c) :
    updateKnowledge 8 (⟨h, w, ∅, ∅, ∅, [⟨{a, b}, ∅, ∅, 1⟩]⟩ : AI) {a, b, c} 1 =
      some ⟨h, w, ∅, ∅, {c},
        [⟨{a, b}, ∅, ∅, 1⟩, ⟨{a, b}, ∅, {c}, 1⟩, ⟨∅, ∅, {c}, 0⟩]⟩ := by
  have h3 := triple_card hab hac hbc
  have h2 := pair_card hab
  have hne1 := pair_ne_triple hac hbc
  have hne2 := triple_ne_pair hac hbc
  have hsub := pair_subset_triple (a := a) (b := b) (c := c)
  have hsd := triple_sdiff hac hbc
  rw [updateKnowledge]
  have e_ing : ingestState (⟨h, w, ∅, ∅, ∅, [⟨{a, b}, ∅, ∅, 1⟩]⟩ : AI) {a, b, c} 1 =
      ⟨h, w, ∅, ∅, ∅, [⟨{a, b}, ∅, ∅, 1⟩, ⟨{a, b, c}, ∅, ∅, 1⟩]⟩ := by
    simp [ingestState, containsSent, sentEq, mkSentence, h3, hne2]
  have e_scan : ingestScan (⟨h, w, ∅, ∅, ∅, [⟨{a, b}, ∅, ∅, 1⟩]⟩ : AI) {a, b, c} 1 =
      (∅, ∅) := by
    simp [ingestScan, ingestState, containsSent, sentEq, mkSentence, scanKnowledge,
      h3, h2, hne2]
  rw [e_ing, e_scan]
  rw [propLoop_empty_batches]
  dsimp only
  rw [elimLoop]
  rw [show (⟨h, w, ∅, ∅, ∅,
      [⟨({a, b} : Finset Cell), ∅, ∅, 1⟩,
        ⟨{a, b, c}, ∅, ∅, 1⟩]⟩ : AI).knowledge.length = 2 from rfl]
  rw [if_pos (by norm_num), show List.range 2 = [0, 1] from rfl]
  have e_pair : elimInner (updateKnowledge 7) (⟨h, w, ∅, ∅, ∅,
      [⟨{a, b}, ∅, ∅, 1⟩, ⟨{a, b, c}, ∅, ∅, 1⟩]⟩ : AI) 0
      (List.range (⟨h, w, ∅, ∅, ∅,
        [⟨({a, b} : Finset Cell), ∅, ∅, 1⟩,
          ⟨{a, b, c}, ∅, ∅, 1⟩]⟩ : AI).knowledge.length) =
      some ⟨h, w, ∅, ∅, {c},
        [⟨{a, b}, ∅, ∅, 1⟩, ⟨{a, b}, ∅, {c}, 1⟩, ⟨∅, ∅, {c}, 0⟩]⟩ := by
    show elimInner (updateKnowledge 7) (⟨h, w, ∅, ∅, ∅,
      [⟨{a, b}, ∅, ∅, 1⟩, ⟨{a, b, c}, ∅, ∅, 1⟩]⟩ : AI) 0 [0, 1] = _
    rw [elimInner]
    rw [show (⟨h, w, ∅, ∅, ∅,
        [⟨({a, b} : Finset Cell), ∅, ∅, 1⟩,
          ⟨{a, b, c}, ∅, ∅, 1⟩]⟩ : AI).knowledge.get? 0 =
        some ⟨{a, b}, ∅, ∅, 1⟩ from rfl]
    dsimp only
    rw [if_pos (Or.inl ⟨rfl, rfl⟩)]
    rw [elimInner]
    rw [show (⟨h, w, ∅, ∅, ∅,
        [⟨({a, b} : Finset Cell), ∅, ∅, 1⟩,
          ⟨{a, b, c}, ∅, ∅, 1⟩]⟩ : AI).knowledge.get? 0 =
        some ⟨{a, b}, ∅, ∅, 1⟩ from rfl]
    rw [show (⟨h, w, ∅, ∅, ∅,
        [⟨({a, b} : Finset Cell), ∅, ∅, 1⟩,
          ⟨{a, b, c}, ∅, ∅, 1⟩]⟩ : AI).knowledge.get? 1 =
        some ⟨{a, b, c}, ∅, ∅, 1⟩ from rfl]
    dsimp only
    rw [if_neg (by simp [sentEq, hne1])]
    rw [if_pos (by simpa using hsub)]
    rw [show (⟨({a, b, c} : Finset Cell), ∅, ∅, (1 : ℤ)⟩ : Sentence).cells \
        (⟨({a, b} : Finset Cell), ∅, ∅, (1 : ℤ)⟩ : Sentence).cells = {c} from hsd]
    rw [show (⟨({a, b, c} : Finset Cell), ∅, ∅, (1 : ℤ)⟩ : Sentence).count -
        (⟨({a, b} : Finset Cell), ∅, ∅, (1 : ℤ)⟩ : Sentence).count = 0 from by norm_num]
    rw [C1_inner_o2 hab hac hbc]
    dsimp only
    rw [elimInner]
  rw [elimOuter, e_pair]
  dsimp only
  have e_p2 : elimInner (updateKnowledge 7) (⟨h, w, ∅, ∅, {c},
      [⟨{a, b}, ∅, ∅, 1⟩, ⟨{a, b}, ∅, {c}, 1⟩, ⟨∅, ∅, {c}, 0⟩]⟩ : AI) 1
      (List.range (⟨h, w, ∅, ∅, {c},
        [⟨({a, b} : Finset Cell), ∅, ∅, 1⟩, ⟨{a, b}, ∅, {c}, 1⟩,
          ⟨∅, ∅, {c}, 0⟩]⟩ : AI).knowledge.length) =
      some ⟨h, w, ∅, ∅, {c},
        [⟨{a, b}, ∅, ∅, 1⟩, ⟨{a, b}, ∅, {c}, 1⟩, ⟨∅, ∅, {c}, 0⟩]⟩ := by
    simp [elimInner, sentEq, List.range_succ]
  rw [elimOuter, e_p2]
  dsimp only
  rw [elimOuter]
  exact C1_elim_stable_o2 (updateKnowledge 7) 4 2 (by norm_num)

/-- C1: from a fresh knowledge base, ingesting ({A,B,C}, 1) and ({A,B}, 1)
through `update_knowledge` in either order terminates and leaves C in the
known-safe set, via the derived constraint ({C}, 0). -/
theorem C1_subset_elimination (a b c : Cell) (h w : ℕ) (hab : a ≠ b) (hac : a ≠ c)
    (hbc : b ≠ c) :
    (∃ ai1 : AI, (updateKnowledge 8 (initAI h w) {a, b, c} 1).bind
        (fun s => updateKnowledge 8 s {a, b} 1) = some ai1 ∧ c ∈ ai1.safes) ∧
    (∃ ai2 : AI, (updateKnowledge 8 (initAI h w) {a, b} 1).bind
        (fun s => updateKnowledge 8 s {a, b, c} 1) = some ai2 ∧ c ∈ ai2.safes) := by
  constructor
  · refine ⟨⟨h, w, ∅, ∅, {c},
      [⟨{a, b}, ∅, {c}, 1⟩, ⟨{a, b}, ∅, ∅, 1⟩, ⟨∅, ∅, {c}, 0⟩]⟩, ?_, by simp⟩
    rw [C1_first_ingest_o1 hab hac hbc, Option.some_bind]
    exact C1_second_ingest_o1 hab hac hbc
  · refine ⟨⟨h, w, ∅, ∅, {c},
      [⟨{a, b}, ∅, ∅, 1⟩, ⟨{a, b}, ∅, {c}, 1⟩, ⟨∅, ∅, {c}, 0⟩]⟩, ?_, by simp⟩
    rw [C1_first_ingest_o2 hab, Option.some_bind]
    exact C1_second_ingest_o2 hab hac hbc

/-- Witness for C1 at the concrete cells (0,0), (0,1), (0,2) on an 8-by-8
board. -/
theorem C1_subset_elimination_witness :
    (∃ ai1 : AI, (updateKnowledge 8 (initAI 8 8) {((0, 0) : Cell), (0, 1), (0, 2)} 1).bind
        (fun s => updateKnowledge 8 s {((0, 0) : Cell), (0, 1)} 1) = some ai1 ∧
        ((0, 2) : Cell) ∈ ai1.safes) ∧
    (∃ ai2 : AI, (updateKnowledge 8 (initAI 8 8) {((0, 0) : Cell), (0, 1)} 1).bind
        (fun s => updateKnowledge 8 s {((0, 0) : Cell), (0, 1), (0, 2)} 1) = some ai2 ∧
        ((0, 2) : Cell) ∈ ai2.safes) :=
  C1_subset_elimination (0, 0) (0, 1) (0, 2) 8 8 (by decide) (by decide) (by decide)
